import Mathlib

/-!
# sway-restore: the rule matcher, the tree-parent resolver and the launch loop

A shallow embedding of `src/main.go`.

* The package-level slice `exec` is a `List Rule` (the value of the slice); where the
  backing array of the slice is observable (the `range` statement of `run` keeps reading
  the array it started on while `delExecIndex` shifts elements inside it), the array is a
  second list carried next to the value.
* The window manager behind `h.client` is an arbitrary state machine `Client σ`: every
  call may change the manager's state, may fail, and the tree may differ between calls.
* A Go run-time panic (slice bounds out of range) is the result `none`.
* Diagnostics written to standard error are not part of the modelled state.
-/

namespace SwayRestore

/-! ## Data model -/

/-- One element of the anonymous struct slice `exec` (main.go, lines 15-25). -/
structure Rule where
  Command : String := ""
  AppID : String := ""
  Class : String := ""
  Title : String := ""
  Workspace : String := ""
  Layout : String := ""
  Float : Bool := false
  PostCommand : String := ""
  SleepBefore : Int := 0
deriving DecidableEq

/-- Modelled from the spec: the type declaration `sway.WindowProperties` of the go-sway
library is not part of the sources; only its field `Class` is read by the program. -/
structure WindowProperties where
  Class : String
deriving DecidableEq

/-- Modelled from the spec: the type declaration `sway.Node` of the go-sway library is not
part of the sources. The fields are the ones the program reads: a numeric id, a type
tag (field `Type` in Go), a name (the window title), an optional application id, optional
window properties, and the two ordered child collections. Children are pointers in Go, so
an entry may be nil (`none`). -/
structure Node where
  ID : Int
  NodeType : String
  Name : String
  AppID : Option String
  WindowProperties : Option WindowProperties
  Nodes : List (Option Node)
  FloatingNodes : List (Option Node)

/-- Modelled from the spec: the type declaration `sway.WindowEvent` of the go-sway library
is not part of the sources; the program reads the change kind and the container. -/
structure WindowEvent where
  Change : String
  Container : Node

/-- The window manager connection `h.client`, as a state machine over an arbitrary state
`σ`. `GetTree` returns the tree root (a possibly nil pointer) or an error; `RunCommand`
returns an optional error. Both may change the state of the manager. -/
structure Client (σ : Type) where
  GetTree : σ → Except String (Option Node) × σ
  RunCommand : σ → String → Option String × σ

/-- The mutable state the handler works on: the package-level table `exec`, the state of
the window manager, the commands handed to `RunCommand` so far (oldest first) and the
number of times `h.unsubscribe` has been called. -/
structure Handler (σ : Type) where
  exec : List Rule
  world : σ
  issued : List String
  unsubscribed : Nat

/-! ## The rule table (main.go, lines 15-63) -/

/-- The initial value of the package-level slice `exec`: the nine rules of the source. -/
def exec : List Rule :=
  [ { Command := "exec gtk-launch firefox", AppID := "firefox", Workspace := "3" },
    { Command := "exec gtk-launch slack", Class := "Slack", Workspace := "2",
      Layout := "tabbed" },
    { Command := "exec gtk-launch discord", Class := "discord", Workspace := "2" },
    { Command := "exec gtk-launch signal-desktop", Class := "Signal", Workspace := "2" },
    { Command := "exec gtk-launch GridTracker", Class := "GridTracker", Workspace := "2" },
    { Command := "exec gtk-launch pavucontrol", AppID := "pavucontrol", Workspace := "5",
      PostCommand := "[workspace=\"5\"] move workspace to DP-3" },
    { Command := "exec gtk-launch catia", Class := "Catia", AppID := "python3",
      Title := "Catia", Workspace := "5" },
    { Command :=
        "exec ray-daemon --session-root \"/home/jrubin/Ray Sessions\" --session Default" },
    { Command := "exec gtk-launch raysession", AppID := "raysession", Workspace := "5" } ]

/-! ## delExecIndex (main.go, lines 230-236) -/

/-- The value of `exec` after `delExecIndex(i)`, or `none` when the call panics.
With `len(exec) <= 1` the slice becomes nil. Otherwise the slice expressions `exec[:i]`
and `exec[i+1:]` need `i <= cap(exec)` and `i+1 <= len(exec)`; since `len <= cap` they
are both in range exactly when `i < len(exec)`, and `append` then yields the elements
before `i` followed by the elements after `i`. -/
def delExecIndex (exec : List Rule) (i : Nat) : Option (List Rule) :=
  if exec.length ≤ 1 then some []
  else if i < exec.length then some (exec.take i ++ exec.drop (i + 1))
  else none

/-! ## handler.ParentByConID (main.go, lines 84-124) -/

/-- The local type `qNode` of `ParentByConID`: a node of the tree (a possibly nil pointer)
paired with the node it was reached from. -/
structure qNode where
  Parent : Option Node
  Node : Option Node

mutual
/-- Number of queue entries created for the subtree of a node, the node itself included:
one per node and one per nil child entry. -/
def Node.weight : Node → Nat
  | ⟨_, _, _, _, _, ns, fs⟩ => 1 + Node.weightList ns + Node.weightList fs
/-- Number of queue entries created for a list of children and everything below them. -/
def Node.weightList : List (Option Node) → Nat
  | [] => 0
  | none :: r => 1 + Node.weightList r
  | some n :: r => Node.weight n + Node.weightList r
end

/-- The queue entries appended for the children `cs` of node `p` (main.go, lines 109-121):
each child is paired with `p` as its parent. -/
def enqueue (p : Node) (cs : List (Option Node)) : List qNode :=
  cs.map fun c => { Parent := some p, Node := c }

/-- Number of loop iterations a queue can still cause; the termination measure of the
search loop. -/
def queueWeight : List qNode → Nat
  | [] => 0
  | q :: r => Node.weightList [q.Node] + queueWeight r

/-- The loop `for len(queue) > 0` of `ParentByConID` (main.go, lines 97-123): the entry at
the head of the queue is taken off; a nil node is skipped; a node whose id is `conID` ends
the search with the parent it is paired with; otherwise the normal children and then the
floating children are appended to the queue. An empty queue ends the search with nil. -/
def search (conID : Int) (queue : List qNode) : Option Node :=
  match queue with
  | [] => none
  | q :: queue =>
    match hq : q.Node with
    | none => search conID queue
    | some n =>
      if n.ID = conID then q.Parent
      else search conID (queue ++ enqueue n n.Nodes ++ enqueue n n.FloatingNodes)
termination_by queueWeight queue
decreasing_by
  · simp [queueWeight, Node.weightList, hq]
  · have happ : ∀ a b : List qNode, queueWeight (a ++ b) = queueWeight a + queueWeight b := by
      intro a b
      induction a with
      | nil => simp [queueWeight]
      | cons x r ih => simp [queueWeight, ih]; omega
    have henq : ∀ cs : List (Option Node),
        queueWeight (enqueue n cs) = Node.weightList cs := by
      intro cs
      induction cs with
      | nil => simp [enqueue, queueWeight, Node.weightList]
      | cons x r ih =>
        have hx : enqueue n (x :: r) = { Parent := some n, Node := x } :: enqueue n r := by
          simp [enqueue]
        rw [hx, queueWeight, ih]
        cases x with
        | none => simp [Node.weightList]
        | some m => simp [Node.weightList]
    have hw : n.weight = 1 + Node.weightList n.Nodes + Node.weightList n.FloatingNodes := by
      cases n; simp [Node.weight]
    simp only [queueWeight, happ, henq, hq, Node.weightList, hw]
    omega

/-- The method `ParentByConID`: fetch the tree; on an error return nil; otherwise search
the tree breadth first starting from the root paired with a nil parent. The second
component is the state of the window manager after the fetch. -/
def ParentByConID {σ : Type} (c : Client σ) (w : σ) (conID : Int) : Option Node × σ :=
  match c.GetTree w with
  | (.error _, w1) => (none, w1)
  | (.ok n, w1) => (search conID [{ Parent := none, Node := n }], w1)

mutual
/-- The tree below a node as a list of (parent, child) pairs: every non-nil child of the
node paired with the node, followed by the pairs below that child; normal children come
before floating children. -/
def Node.edges : Node → List (Option Node × Node)
  | n@⟨_, _, _, _, _, ns, fs⟩ => Node.edgesList (some n) ns ++ Node.edgesList (some n) fs
/-- The pairs contributed by a list of children of `par`; nil entries contribute nothing. -/
def Node.edgesList (par : Option Node) : List (Option Node) → List (Option Node × Node)
  | [] => []
  | none :: r => Node.edgesList par r
  | some c :: r => (par, c) :: (Node.edges c ++ Node.edgesList par r)
end

/-- All nodes of a tree: the root and every node below it. -/
def Node.nodes (t : Node) : List Node :=
  t :: t.edges.map Prod.snd

/-- Every node that a queue of the search still leads to, paired with its parent. -/
def reach : List qNode → List (Option Node × Node)
  | [] => []
  | q :: r => Node.edgesList q.Parent [q.Node] ++ reach r

mutual
/-- Reference definition for the comparison with the breadth-first search, in the words of
the specification: a depth-first pre-order search. A node is examined before its
children, the normal children before the floating ones, each child with everything below
it before the next child; the first node whose id is `conID` ends the search with the
parent it was reached from (`some par`); `none` means that no node was found. -/
def depthFirst (conID : Int) (par : Option Node) : Node → Option (Option Node)
  | n@⟨id, _, _, _, _, ns, fs⟩ =>
    if id = conID then some par
    else
      match depthFirstList conID (some n) ns with
      | some p => some p
      | none => depthFirstList conID (some n) fs
/-- The depth-first search through a list of children of `par`, nil entries skipped. -/
def depthFirstList (conID : Int) (par : Option Node) :
    List (Option Node) → Option (Option Node)
  | [] => none
  | none :: r => depthFirstList conID par r
  | some c :: r =>
    match depthFirst conID par c with
    | some p => some p
    | none => depthFirstList conID par r
end

/-- The result of the depth-first search of a tree in the shape `ParentByConID` returns
it: the parent of the first node found, nil when that node is the root or when no node is
found. -/
def depthFirstParent (t : Node) (conID : Int) : Option Node :=
  match depthFirst conID none t with
  | some p => p
  | none => none

/-! ## handler.Window (main.go, lines 126-191) -/

/-- The flag `found` computed by the body of the loop of `Window` for rule `s`
(main.go, lines 132-143). -/
def found (s : Rule) (e : WindowEvent) : Bool :=
  let found : Bool := false
  let found : Bool :=
    match e.Container.WindowProperties with
    | some wp => if s.Class != "" && wp.Class == s.Class then true else found
    | none => found
  match e.Container.AppID with
  | some a =>
    if s.AppID != "" && a == s.AppID then
      if s.Title == "" then true
      else if e.Container.Name == s.Title then true
      else found
    else found
  | none => found

/-- The loop `for i, s := range exec` of `Window` up to its `break`: the index and the
value of the first rule for which `found` is set, scanning from index `i`. -/
def firstFound (e : WindowEvent) : List Rule → Nat → Option (Nat × Rule)
  | [], _ => none
  | s :: rest, i => if found s e then some (i, s) else firstFound e rest (i + 1)

/-- One call `h.client.RunCommand(ctx, cmd)` whose error, if any, is only reported: the
command is recorded and the window manager moves to its next state. -/
def runCommand {σ : Type} (c : Client σ) (h : Handler σ) (cmd : String) : Handler σ :=
  { h with world := (c.RunCommand h.world cmd).2, issued := h.issued ++ [cmd] }

/-- Lines 151-156: the workspace effect. -/
def applyWorkspace {σ : Type} (c : Client σ) (h : Handler σ) (s : Rule) (e : WindowEvent) :
    Handler σ :=
  if s.Workspace != "" then
    runCommand c h
      ("[con_id=" ++ toString e.Container.ID ++ "] move to workspace " ++ s.Workspace)
  else h

/-- Lines 160-165: the text of the layout command for the parent node `p`: scoped by the
workspace name when `p` is a workspace node and by the id of `p` otherwise. `quote` is the
formatting verb `%q` of Go (the library function strconv.Quote). -/
def layoutCommand (quote : String → String) (p : Node) (layout : String) : String :=
  if p.NodeType = "workspace" then "[workspace=" ++ quote p.Name ++ "] layout " ++ layout
  else "[con_id=" ++ toString p.ID ++ "] layout " ++ layout

/-- Lines 158-170: the layout effect. The parent of the container is looked up in a
freshly fetched tree; when a node is returned the layout command is issued, otherwise
nothing is issued. -/
def applyLayout {σ : Type} (quote : String → String) (c : Client σ) (h : Handler σ)
    (s : Rule) (e : WindowEvent) : Handler σ :=
  if s.Layout != "" then
    match ParentByConID c h.world e.Container.ID with
    | (some p, w1) => runCommand c { h with world := w1 } (layoutCommand quote p s.Layout)
    | (none, w1) => { h with world := w1 }
  else h

/-- Lines 172-177: the floating effect. -/
def applyFloat {σ : Type} (c : Client σ) (h : Handler σ) (s : Rule) (e : WindowEvent) :
    Handler σ :=
  if s.Float then
    runCommand c h ("[con_id=" ++ toString e.Container.ID ++ "] floating enable")
  else h

/-- Lines 179-183: the follow-up command. -/
def applyPostCommand {σ : Type} (c : Client σ) (h : Handler σ) (s : Rule) : Handler σ :=
  if s.PostCommand != "" then runCommand c h s.PostCommand else h

/-- Lines 151-183: the effects of a matched rule `s`, in source order. -/
def applyEffects {σ : Type} (quote : String → String) (c : Client σ) (h : Handler σ)
    (s : Rule) (e : WindowEvent) : Handler σ :=
  let h := applyWorkspace c h s e
  let h := applyLayout quote c h s e
  let h := applyFloat c h s e
  applyPostCommand c h s

/-- Lines 188-190: `if len(exec) == 0 { h.unsubscribe() }`. -/
def checkExhausted {σ : Type} (h : Handler σ) : Handler σ :=
  if h.exec.length = 0 then { h with unsubscribed := h.unsubscribed + 1 } else h

/-- The method `Window`. An event whose change kind is neither "new" nor "title" returns
at once. Otherwise the first rule for which `found` is set is removed with `delExecIndex`,
its effects are applied and the loop is left; after the loop the emptiness check runs.
The result is `none` when `delExecIndex` panics. -/
def Window {σ : Type} (quote : String → String) (c : Client σ) (h : Handler σ)
    (e : WindowEvent) : Option (Handler σ) :=
  if e.Change != "new" && e.Change != "title" then some h
  else
    match firstFound e h.exec 0 with
    | none => some (checkExhausted h)
    | some (i, s) =>
      match delExecIndex h.exec i with
      | none => none
      | some t => some (checkExhausted (applyEffects quote c { h with exec := t } s e))

/-- A sequence of events handled by `Window` one after the other, in order. -/
def handleEvents {σ : Type} (quote : String → String) (c : Client σ) :
    Handler σ → List WindowEvent → Option (Handler σ)
  | h, [] => some h
  | h, e :: es =>
    match Window quote c h e with
    | none => none
    | some h1 => handleEvents quote c h1 es

/-- Bookkeeping for a sequence of events: every rule of the current table is tagged with
its position in the initial table, and the tagged rules that the scan of `Window` picks
are collected, one per event that picks a rule, in the order of the events. The tagged
table loses the picked entry exactly as `exec` loses it in `Window`. -/
def selections : List (Nat × Rule) → List WindowEvent → List (Nat × Rule)
  | _, [] => []
  | cur, e :: es =>
    if e.Change != "new" && e.Change != "title" then selections cur es
    else
      match firstFound e (cur.map Prod.snd) 0 with
      | none => selections cur es
      | some (i, _) => cur[i]?.toList ++ selections (cur.eraseIdx i) es

/-! ## The launch loop of run (main.go, lines 215-225) -/

/-- The state the launch loop works on: the value of the package-level slice `exec`, the
backing array the `range` statement reads from, the state of the window manager, the
commands handed to `RunCommand` so far (oldest first) and the total time slept. -/
structure Launch (σ : Type) where
  exec : List Rule
  backing : List Rule
  world : σ
  issued : List String
  slept : Int

/-- The test of line 222: the rule has no application id, no title and no class. -/
def noMatchFields (s : Rule) : Bool :=
  s.AppID == "" && s.Title == "" && s.Class == ""

/-- One iteration of `for i, s := range exec` in `run`. The range expression is evaluated
once, so `s` is read at index `i` of the array the loop started on. `delExecIndex` works
in place: `append(exec[:i], exec[i+1:]...)` fits the capacity, so the new value of `exec`
is written over the front of that same array and the elements behind it stay as they
were; when `exec` becomes nil the array is not written at all. -/
def launchStep {σ : Type} (c : Client σ) (st : Launch σ) (i : Nat) : Option (Launch σ) :=
  match st.backing[i]? with
  | none => none
  | some s =>
    let st :=
      if s.Command != "" then
        { st with
          slept := if s.SleepBefore > 0 then st.slept + s.SleepBefore else st.slept
          world := (c.RunCommand st.world s.Command).2
          issued := st.issued ++ [s.Command] }
      else st
    if noMatchFields s then
      match delExecIndex st.exec i with
      | none => none
      | some t => some { st with exec := t, backing := t ++ st.backing.drop t.length }
    else some st

/-- The iterations of the launch loop for the given indices, in order; `none` as soon as
one of them panics. -/
def launchLoop {σ : Type} (c : Client σ) : List Nat → Launch σ → Option (Launch σ)
  | [], st => some st
  | i :: is, st =>
    match launchStep c st i with
    | none => none
    | some st1 => launchLoop c is st1

/-- The launch loop of `run` on the table `exec`: the indices are those of the table as it
is when the loop starts. -/
def launch {σ : Type} (c : Client σ) (exec : List Rule) (w : σ) : Option (Launch σ) :=
  launchLoop c (List.range exec.length)
    { exec := exec, backing := exec, world := w, issued := [], slept := 0 }

/-- The state the window manager is in after the commands `cmds` have been handed to
`RunCommand` one after the other, starting in state `w`. -/
def handOver {σ : Type} (c : Client σ) (w : σ) (cmds : List String) : σ :=
  cmds.foldl (fun w1 cmd => (c.RunCommand w1 cmd).2) w

/-- What the launch loop leaves apart from the state of the window manager: the table,
the array, the commands issued and the time slept. -/
def Launch.view {σ : Type} (st : Launch σ) : List Rule × List Rule × List String × Int :=
  (st.exec, st.backing, st.issued, st.slept)

/-! ## Concrete inputs used to exercise the theorems -/

/-- A leaf window of the tree. -/
def window (id : Int) (name : String) (appID : Option String)
    (cls : Option String) : Node :=
  { ID := id, NodeType := "con", Name := name, AppID := appID,
    WindowProperties := cls.map fun k => { Class := k },
    Nodes := [], FloatingNodes := [] }

/-- A split container (id 7) with the windows 43 and 44. -/
def demoSplit : Node :=
  { ID := 7, NodeType := "con", Name := "", AppID := none, WindowProperties := none,
    Nodes := [some (window 43 "Mozilla Firefox" (some "firefox") none),
      some (window 44 "Catia" (some "python3") (some "Catia"))],
    FloatingNodes := [] }

/-- The workspace "2" (id 3) holding window 42, the split container 7, a nil entry and
the floating window 50. -/
def demoWorkspace : Node :=
  { ID := 3, NodeType := "workspace", Name := "2", AppID := none, WindowProperties := none,
    Nodes := [some (window 42 "Slack" none (some "Slack")), some demoSplit, none],
    FloatingNodes := [some (window 50 "Volume Control" (some "pavucontrol") none)] }

/-- A small tree: root 1, output 2, and below it the workspace "2". -/
def demoTree : Node :=
  { ID := 1, NodeType := "root", Name := "root", AppID := none, WindowProperties := none,
    Nodes := [some
      { ID := 2, NodeType := "output", Name := "DP-3", AppID := none,
        WindowProperties := none, Nodes := [some demoWorkspace], FloatingNodes := [] }],
    FloatingNodes := [] }

/-- A window manager without state whose tree is always `demoTree` and whose commands
always succeed. -/
def demoClient : Client Unit :=
  { GetTree := fun w => (.ok (some demoTree), w)
    RunCommand := fun w _ => (none, w) }

/-- A window manager without state whose every call fails. -/
def failingClient : Client Unit :=
  { GetTree := fun w => (.error "connection lost", w)
    RunCommand := fun w _ => (some "connection lost", w) }

/-- A window manager whose state is the record of the calls it has received, oldest
first: every command handed to `RunCommand` is appended as it is, every tree fetch as
"get_tree". The tree is always `demoTree` and the commands succeed. -/
def recordingClient : Client (List String) :=
  { GetTree := fun w => (.ok (some demoTree), w ++ ["get_tree"])
    RunCommand := fun w cmd => (none, w ++ [cmd]) }

/-- A window manager that records the calls it receives as `recordingClient` does and
fails every one of them. -/
def failingRecorder : Client (List String) :=
  { GetTree := fun w => (.error "connection lost", w ++ ["get_tree"])
    RunCommand := fun w cmd => (some "connection lost", w ++ [cmd]) }

/-- A handler state at the start of event processing with the given table, for a window
manager that records its calls. -/
def recordingHandler (exec : List Rule) : Handler (List String) :=
  { exec := exec, world := [], issued := [], unsubscribed := 0 }

/-- Quoting of a name without special characters: the name between double quotes. -/
def plainQuote (s : String) : String :=
  "\"" ++ s ++ "\""

/-- A rule with all four effects, matching windows of class "Slack". -/
def slackRule : Rule :=
  { Class := "Slack", Workspace := "2", Layout := "tabbed", Float := true,
    PostCommand := "workspace 2" }

/-- The rule of the shipped table for windows of class "discord". -/
def discordRule : Rule :=
  { Command := "exec gtk-launch discord", Class := "discord", Workspace := "2" }

/-- A "new" event for a window of class "discord". -/
def discordEvent : WindowEvent :=
  { Change := "new",
    Container :=
      { ID := 60, NodeType := "con", Name := "Discord", AppID := none,
        WindowProperties := some { Class := "discord" }, Nodes := [], FloatingNodes := [] } }

/-- A rule that only carries a title: it has neither an application id nor a class. -/
def titleOnlyRule : Rule :=
  { Command := "exec gtk-launch catia", Title := "Catia" }

/-- The rule of the shipped table that only launches a command. -/
def rayDaemonRule : Rule :=
  { Command := "exec ray-daemon --session Default" }

/-- A second rule that only launches a command, after a pause of two seconds. -/
def secondDaemonRule : Rule :=
  { Command := "exec second-daemon", SleepBefore := 2000000000 }

/-- A second rule for windows of class "discord", with the match fields of `discordRule`. -/
def discordAgainRule : Rule :=
  { Command := "exec gtk-launch discord --second", Class := "discord", Workspace := "9" }

/-- A rule matching windows of application id "firefox". -/
def firefoxRule : Rule :=
  { Command := "exec gtk-launch firefox", AppID := "firefox", Workspace := "3" }

/-- A handler state at the start of event processing with the given table. -/
def freshHandler (exec : List Rule) : Handler Unit :=
  { exec := exec, world := (), issued := [], unsubscribed := 0 }

/-- A "new" event for a window. -/
def newWindow (n : Node) : WindowEvent :=
  { Change := "new", Container := n }

/-! ## Theorems -/

/-! ### The scan of the rule table -/

/-- The scan finds nothing exactly when `found` is set for no rule of the table. -/
theorem firstFound_eq_none_iff (e : WindowEvent) (l : List Rule) (k : Nat) :
    firstFound e l k = none ↔ ∀ r ∈ l, found r e = false := by
  induction l generalizing k with
  | nil => simp [firstFound]
  | cons s rest ih =>
    by_cases hs : found s e = true
    · simp [firstFound, hs]
    · simp [firstFound, hs, ih]

/-- The scan started at index `k` returns the first rule for which `found` is set,
together with its position counted from `k`. -/
theorem firstFound_of_first (e : WindowEvent) (l : List Rule) (k j : Nat) (s : Rule)
    (hj : l[j]? = some s) (hs : found s e = true)
    (hlt : ∀ m, m < j → ∀ r, l[m]? = some r → found r e = false) :
    firstFound e l k = some (k + j, s) := by
  induction l generalizing k j with
  | nil => simp at hj
  | cons a rest ih =>
    cases j with
    | zero =>
      simp at hj
      subst hj
      simp [firstFound, hs]
    | succ j =>
      have ha : found a e = false := hlt 0 (Nat.succ_pos j) a (by simp)
      have hrest : ∀ m, m < j → ∀ r, rest[m]? = some r → found r e = false := by
        intro m hm r hr
        exact hlt (m + 1) (Nat.succ_lt_succ hm) r (by simpa using hr)
      have := ih (k + 1) j (by simpa using hj) hrest
      simp [firstFound, ha, this]
      omega

/-- Whatever the scan started at index `k` returns is the first rule for which `found` is
set, together with its position counted from `k`. -/
theorem firstFound_some (e : WindowEvent) (l : List Rule) (k i : Nat) (s : Rule)
    (h : firstFound e l k = some (i, s)) :
    ∃ j, i = k + j ∧ l[j]? = some s ∧ found s e = true ∧
      ∀ m, m < j → ∀ r, l[m]? = some r → found r e = false := by
  induction l generalizing k with
  | nil => simp [firstFound] at h
  | cons a rest ih =>
    by_cases ha : found a e = true
    · simp [firstFound, ha] at h
      obtain ⟨rfl, rfl⟩ := h
      exact ⟨0, rfl, by simp, ha, by intro m hm; omega⟩
    · simp [firstFound, ha] at h
      obtain ⟨j, hij, hj, hs, hlt⟩ := ih (k + 1) h
      refine ⟨j + 1, by omega, by simpa using hj, hs, ?_⟩
      intro m hm r hr
      cases m with
      | zero =>
        simp at hr
        subst hr
        simpa using ha
      | succ m => exact hlt m (by omega) r (by simpa using hr)

/-- Within the bounds of the table `delExecIndex` does not panic and removes exactly the
element at the given index. -/
theorem delExecIndex_of_lt (l : List Rule) (i : Nat) (hi : i < l.length) :
    delExecIndex l i = some (l.eraseIdx i) := by
  unfold delExecIndex
  by_cases h1 : l.length ≤ 1
  · have hi0 : i = 0 := by omega
    subst hi0
    match l, hi, h1 with
    | [_], _, _ => simp
  · simp [h1, hi, List.eraseIdx_eq_take_drop_succ]

/-- C1: the loop body of `Window` sets `found` for a rule and an event exactly when the
rule has a non-empty Class, the event carries window properties and their class is the
rule's Class, or the rule has a non-empty AppID, the event carries that application id,
and the rule's Title is empty or equal to the name of the event's container. This holds
for every event, in particular for those of kind "new" or "title". -/
theorem found_iff (s : Rule) (e : WindowEvent) :
    found s e = true ↔
      (s.Class ≠ "" ∧ ∃ wp, e.Container.WindowProperties = some wp ∧ wp.Class = s.Class) ∨
      (s.AppID ≠ "" ∧ e.Container.AppID = some s.AppID ∧
        (s.Title = "" ∨ e.Container.Name = s.Title)) := by
  unfold found
  cases hwp : e.Container.WindowProperties <;> cases hid : e.Container.AppID <;>
    simp only [] <;> (repeat split) <;> simp_all
  all_goals tauto

/-! ### What `Window` does to the table -/

@[simp] theorem runCommand_exec {σ : Type} (c : Client σ) (h : Handler σ) (cmd : String) :
    (runCommand c h cmd).exec = h.exec := rfl

@[simp] theorem runCommand_unsubscribed {σ : Type} (c : Client σ) (h : Handler σ)
    (cmd : String) : (runCommand c h cmd).unsubscribed = h.unsubscribed := rfl

@[simp] theorem applyWorkspace_exec {σ : Type} (c : Client σ) (h : Handler σ) (s : Rule)
    (e : WindowEvent) : (applyWorkspace c h s e).exec = h.exec := by
  unfold applyWorkspace
  split <;> rfl

@[simp] theorem applyWorkspace_unsubscribed {σ : Type} (c : Client σ) (h : Handler σ)
    (s : Rule) (e : WindowEvent) :
    (applyWorkspace c h s e).unsubscribed = h.unsubscribed := by
  unfold applyWorkspace
  split <;> rfl

@[simp] theorem applyLayout_exec {σ : Type} (quote : String → String) (c : Client σ)
    (h : Handler σ) (s : Rule) (e : WindowEvent) :
    (applyLayout quote c h s e).exec = h.exec := by
  unfold applyLayout
  split
  · split <;> rfl
  · rfl

@[simp] theorem applyLayout_unsubscribed {σ : Type} (quote : String → String) (c : Client σ)
    (h : Handler σ) (s : Rule) (e : WindowEvent) :
    (applyLayout quote c h s e).unsubscribed = h.unsubscribed := by
  unfold applyLayout
  split
  · split <;> rfl
  · rfl

@[simp] theorem applyFloat_exec {σ : Type} (c : Client σ) (h : Handler σ) (s : Rule)
    (e : WindowEvent) : (applyFloat c h s e).exec = h.exec := by
  unfold applyFloat
  split <;> rfl

@[simp] theorem applyFloat_unsubscribed {σ : Type} (c : Client σ) (h : Handler σ)
    (s : Rule) (e : WindowEvent) :
    (applyFloat c h s e).unsubscribed = h.unsubscribed := by
  unfold applyFloat
  split <;> rfl

@[simp] theorem applyPostCommand_exec {σ : Type} (c : Client σ) (h : Handler σ) (s : Rule) :
    (applyPostCommand c h s).exec = h.exec := by
  unfold applyPostCommand
  split <;> rfl

@[simp] theorem applyPostCommand_unsubscribed {σ : Type} (c : Client σ) (h : Handler σ)
    (s : Rule) : (applyPostCommand c h s).unsubscribed = h.unsubscribed := by
  unfold applyPostCommand
  split <;> rfl

@[simp] theorem applyEffects_exec {σ : Type} (quote : String → String) (c : Client σ)
    (h : Handler σ) (s : Rule) (e : WindowEvent) :
    (applyEffects quote c h s e).exec = h.exec := by
  simp [applyEffects]

@[simp] theorem applyEffects_unsubscribed {σ : Type} (quote : String → String) (c : Client σ)
    (h : Handler σ) (s : Rule) (e : WindowEvent) :
    (applyEffects quote c h s e).unsubscribed = h.unsubscribed := by
  simp [applyEffects]

@[simp] theorem checkExhausted_exec {σ : Type} (h : Handler σ) :
    (checkExhausted h).exec = h.exec := by
  unfold checkExhausted
  split <;> rfl

/-- An event of any other kind than "new" and "title" returns at once. -/
theorem Window_of_other_kind {σ : Type} (quote : String → String) (c : Client σ)
    (h : Handler σ) (e : WindowEvent) (h1 : e.Change ≠ "new") (h2 : e.Change ≠ "title") :
    Window quote c h e = some h := by
  simp [Window, h1, h2]

/-- An event of kind "new" or "title" for which the scan finds nothing only runs the
emptiness check. -/
theorem Window_of_not_found {σ : Type} (quote : String → String) (c : Client σ)
    (h : Handler σ) (e : WindowEvent) (hk : e.Change = "new" ∨ e.Change = "title")
    (hf : firstFound e h.exec 0 = none) :
    Window quote c h e = some (checkExhausted h) := by
  rcases hk with hk | hk <;> simp [Window, hk, hf]

/-- An event of kind "new" or "title" for which the scan finds the rule `s` at index `i`
removes that index, applies the effects of `s` and runs the emptiness check. -/
theorem Window_of_found {σ : Type} (quote : String → String) (c : Client σ)
    (h : Handler σ) (e : WindowEvent) (hk : e.Change = "new" ∨ e.Change = "title")
    (i : Nat) (s : Rule) (hf : firstFound e h.exec 0 = some (i, s)) :
    Window quote c h e =
      some (checkExhausted (applyEffects quote c { h with exec := h.exec.eraseIdx i } s e)) := by
  obtain ⟨j, hij, hj, -, -⟩ := firstFound_some e h.exec 0 i s hf
  have hi : i < h.exec.length := by
    have : j < h.exec.length := by
      by_contra hge
      rw [List.getElem?_eq_none (by omega)] at hj
      simp at hj
    omega
  rcases hk with hk | hk <;> simp [Window, hk, hf, delExecIndex_of_lt h.exec i hi]

/-- After the removal of index `i`, the first rule behind `i` for which `found` is set is
the first such rule of the whole table, provided none in front of `i` has it set. -/
theorem firstFound_eraseIdx (e : WindowEvent) (l : List Rule) (i j : Nat) (t : Rule)
    (hfirst : ∀ m, m < i → ∀ r, l[m]? = some r → found r e = false)
    (hij : i < j) (hj : l[j]? = some t) (ht : found t e = true)
    (hbetween : ∀ m, i < m → m < j → ∀ r, l[m]? = some r → found r e = false) :
    firstFound e (l.eraseIdx i) 0 = some (j - 1, t) := by
  have key := firstFound_of_first e (l.eraseIdx i) 0 (j - 1) t
    (by rw [List.getElem?_eraseIdx_of_ge l i (j - 1) (by omega)]
        have : j - 1 + 1 = j := by omega
        rw [this]; exact hj)
    ht
    (by
      intro m hm r hr
      by_cases hmi : m < i
      · rw [List.getElem?_eraseIdx_of_lt l i m hmi] at hr
        exact hfirst m hmi r hr
      · rw [List.getElem?_eraseIdx_of_ge l i m (by omega)] at hr
        exact hbetween (m + 1) (by omega) (by omega) r hr)
  simpa using key

/-- C2 (first match wins): when an event of kind "new" or "title" matches at least one
rule, `Window` selects the matching rule of smallest index `i` and removes exactly that
index, so every other rule keeps its place in the original order. Any later rule at index
`j` that also matches, with no matching rule between `i` and `j`, is the one selected
(now at index `j - 1`) and removed when the same event is handled again. -/
theorem Window_first_match_wins {σ : Type} (quote : String → String) (c : Client σ)
    (h : Handler σ) (e : WindowEvent) (hk : e.Change = "new" ∨ e.Change = "title")
    (hm : ∃ r ∈ h.exec, found r e = true) :
    ∃ i s h1,
      h.exec[i]? = some s ∧ found s e = true ∧
      (∀ m, m < i → ∀ r, h.exec[m]? = some r → found r e = false) ∧
      firstFound e h.exec 0 = some (i, s) ∧
      Window quote c h e = some h1 ∧
      h1.exec = h.exec.eraseIdx i ∧
      ∀ j t, i < j → h.exec[j]? = some t → found t e = true →
        (∀ m, i < m → m < j → ∀ r, h.exec[m]? = some r → found r e = false) →
        firstFound e h1.exec 0 = some (j - 1, t) ∧
        ∃ h2, Window quote c h1 e = some h2 ∧
          h2.exec = (h.exec.eraseIdx i).eraseIdx (j - 1) := by
  cases hf : firstFound e h.exec 0 with
  | none =>
    obtain ⟨r, hr, hfr⟩ := hm
    have := (firstFound_eq_none_iff e h.exec 0).1 hf r hr
    simp [this] at hfr
  | some p =>
    obtain ⟨i, s⟩ := p
    obtain ⟨j0, hij0, hi, hs, hfirst⟩ := firstFound_some e h.exec 0 i s hf
    have hi0 : j0 = i := by omega
    subst hi0
    refine ⟨j0, s, _, hi, hs, hfirst, rfl, Window_of_found quote c h e hk j0 s hf, by simp, ?_⟩
    intro j t hij hj ht hbetween
    have hsel := firstFound_eraseIdx e h.exec j0 j t hfirst hij hj ht hbetween
    refine ⟨by simpa using hsel, _, Window_of_found quote c _ e hk (j - 1) t (by simpa using hsel), ?_⟩
    simp

/-- C2, exercised on a table whose two rules both match the event. -/
theorem Window_first_match_wins_witness :
    (∃ r ∈ (freshHandler [{ Class := "Slack", Workspace := "2" },
        { Class := "Slack", Workspace := "9" }]).exec,
      found r (newWindow (window 42 "Slack" none (some "Slack"))) = true) ∧
    ∃ i s h1,
      (freshHandler [{ Class := "Slack", Workspace := "2" },
        { Class := "Slack", Workspace := "9" }]).exec[i]? = some s ∧
      found s (newWindow (window 42 "Slack" none (some "Slack"))) = true ∧
      Window plainQuote demoClient (freshHandler [{ Class := "Slack", Workspace := "2" },
        { Class := "Slack", Workspace := "9" }])
        (newWindow (window 42 "Slack" none (some "Slack"))) = some h1 ∧
      h1.exec = (freshHandler [{ Class := "Slack", Workspace := "2" },
        { Class := "Slack", Workspace := "9" }]).exec.eraseIdx i := by
  have hm : ∃ r ∈ (freshHandler [{ Class := "Slack", Workspace := "2" },
        { Class := "Slack", Workspace := "9" }]).exec,
      found r (newWindow (window 42 "Slack" none (some "Slack"))) = true :=
    ⟨{ Class := "Slack", Workspace := "2" }, by simp [freshHandler], by decide⟩
  obtain ⟨i, s, h1, hi, hs, -, -, hw, he, -⟩ :=
    Window_first_match_wins plainQuote demoClient _ _ (Or.inl rfl) hm
  exact ⟨hm, i, s, h1, hi, hs, hw, he⟩

/-! ### Sequences of events -/

/-- `Window` never panics; it leaves the table as it is or removes one index of it. -/
theorem Window_exec {σ : Type} (quote : String → String) (c : Client σ) (h : Handler σ)
    (e : WindowEvent) :
    ∃ h1, Window quote c h e = some h1 ∧
      (h1.exec = h.exec ∨ ∃ i s, firstFound e h.exec 0 = some (i, s) ∧ i < h.exec.length ∧
        (e.Change = "new" ∨ e.Change = "title") ∧ h1.exec = h.exec.eraseIdx i) := by
  by_cases hk : e.Change = "new" ∨ e.Change = "title"
  · cases hf : firstFound e h.exec 0 with
    | none => exact ⟨_, Window_of_not_found quote c h e hk hf, Or.inl (by simp)⟩
    | some p =>
      obtain ⟨i, s⟩ := p
      obtain ⟨j, hij, hj, -, -⟩ := firstFound_some e h.exec 0 i s hf
      have hi : i < h.exec.length := by
        have : j < h.exec.length := by
          by_contra hge
          rw [List.getElem?_eq_none (by omega)] at hj
          simp at hj
        omega
      exact ⟨_, Window_of_found quote c h e hk i s hf, Or.inr ⟨i, s, rfl, hi, hk, by simp⟩⟩
  · have h1 : e.Change ≠ "new" := fun h => hk (Or.inl h)
    have h2 : e.Change ≠ "title" := fun h => hk (Or.inr h)
    exact ⟨h, Window_of_other_kind quote c h e h1 h2, Or.inl rfl⟩

/-- In a tagged table with pairwise distinct tags, removing an index is the same as
filtering out the tag found at that index. -/
theorem eraseIdx_eq_filter_tag (cur : List (Nat × Rule)) (i : Nat) (x : Nat × Rule)
    (hnd : (cur.map Prod.fst).Nodup) (hx : cur[i]? = some x) :
    cur.eraseIdx i = cur.filter fun y => decide (y.1 ≠ x.1) := by
  induction cur generalizing i with
  | nil => simp at hx
  | cons a rest ih =>
    simp only [List.map_cons, List.nodup_cons, List.mem_map, not_exists, not_and] at hnd
    cases i with
    | zero =>
      simp at hx
      subst hx
      simp only [List.eraseIdx_cons_zero, List.filter_cons, ne_eq, not_true_eq_false,
        decide_False, Bool.false_eq_true, if_false]
      symm
      apply List.filter_eq_self.2
      intro y hy
      simpa using hnd.1 y hy
    | succ i =>
      have hx1 : rest[i]? = some x := by simpa using hx
      have hmem : x ∈ rest := List.getElem?_mem hx1
      have hne : a.1 ≠ x.1 := fun h => hnd.1 x hmem h.symm
      simp [List.filter_cons, hne, ih i hnd.2 hx1]

/-- The bookkeeping follows `handleEvents`: from a tagged table with distinct tags whose
rules are the current table, the events are all handled without a panic, the picked
entries are entries of the tagged table with pairwise distinct tags, and the final table
consists of the entries whose tag was not picked. -/
theorem handleEvents_selections {σ : Type} (quote : String → String) (c : Client σ)
    (es : List WindowEvent) :
    ∀ (cur : List (Nat × Rule)) (h : Handler σ), h.exec = cur.map Prod.snd →
      (cur.map Prod.fst).Nodup →
      ∃ h1, handleEvents quote c h es = some h1 ∧
        (∀ x ∈ selections cur es, x ∈ cur) ∧
        ((selections cur es).map Prod.fst).Nodup ∧
        h1.exec = (cur.filter fun x =>
          decide (x.1 ∉ (selections cur es).map Prod.fst)).map Prod.snd ∧
        h1.exec.length + (selections cur es).length = h.exec.length ∧
        (selections cur es).length ≤ es.length := by
  induction es with
  | nil =>
    intro cur h hcur _
    exact ⟨h, rfl, by simp [selections], by simp [selections],
      by simp [selections, hcur], by simp [selections], by simp [selections]⟩
  | cons e es ih =>
    intro cur h hcur hnd
    obtain ⟨h1, hw, hcase⟩ := Window_exec quote c h e
    have hstep : handleEvents quote c h (e :: es) = handleEvents quote c h1 es := by
      simp [handleEvents, hw]
    rcases hcase with hsame | ⟨i, s, hf, hi, hk, herase⟩
    · -- the table is unchanged: the bookkeeping picks nothing for this event
      have hsel : selections cur (e :: es) = selections cur es := by
        by_cases hk : e.Change = "new" ∨ e.Change = "title"
        · cases hf : firstFound e h.exec 0 with
          | none =>
            rw [hcur] at hf
            rcases hk with hk | hk <;> simp [selections, hk, hf]
          | some p =>
            obtain ⟨i, s⟩ := p
            have hw2 := Window_of_found quote c h e hk i s hf
            rw [hw] at hw2
            have hlen : h1.exec.length = (h.exec.eraseIdx i).length := by
              have := congrArg (fun o => o.map fun x => x.exec.length) hw2
              simpa using this
            obtain ⟨j, hij, hj, -, -⟩ := firstFound_some e h.exec 0 i s hf
            have hi : i < h.exec.length := by
              have : j < h.exec.length := by
                by_contra hge
                rw [List.getElem?_eq_none (by omega)] at hj
                simp at hj
              omega
            rw [List.length_eraseIdx_of_lt hi, hsame] at hlen
            omega
        · have h1 : e.Change ≠ "new" := fun h => hk (Or.inl h)
          have h2 : e.Change ≠ "title" := fun h => hk (Or.inr h)
          simp [selections, h1, h2]
      obtain ⟨h2, hh, hmem, hnd2, hfin, hlen, hle⟩ := ih cur h1 (by rw [hsame, hcur]) hnd
      refine ⟨h2, by rw [hstep, hh], ?_, ?_, ?_, ?_, ?_⟩
      · rw [hsel]; exact hmem
      · rw [hsel]; exact hnd2
      · rw [hsel]; exact hfin
      · rw [hsel, hlen, hsame]
      · rw [hsel]; simp; omega
    · -- index `i` is removed: the bookkeeping picks the entry tagged at `i`
      have hi2 : i < cur.length := by simpa [hcur] using hi
      have hx : cur[i]? = some cur[i] := List.getElem?_eq_getElem hi2
      have hsel : selections cur (e :: es) = cur[i] :: selections (cur.eraseIdx i) es := by
        rw [hcur] at hf
        rcases hk with hk | hk <;> simp [selections, hk, hf, hx]
      have hcur2 : h1.exec = (cur.eraseIdx i).map Prod.snd := by
        rw [herase, hcur]
        simp [List.eraseIdx_eq_take_drop_succ, List.map_take, List.map_drop]
      have hnd1 : ((cur.eraseIdx i).map Prod.fst).Nodup := by
        have : (cur.eraseIdx i).map Prod.fst = (cur.map Prod.fst).eraseIdx i := by
          simp [List.eraseIdx_eq_take_drop_succ, List.map_take, List.map_drop]
        rw [this]
        exact hnd.eraseIdx i
      obtain ⟨h2, hh, hmem, hnd2, hfin, hlen, hle⟩ := ih (cur.eraseIdx i) h1 hcur2 hnd1
      have hfilter := eraseIdx_eq_filter_tag cur i cur[i] hnd hx
      have hnotin : cur[i].1 ∉ (selections (cur.eraseIdx i) es).map Prod.fst := by
        intro hin
        obtain ⟨y, hy, hy1⟩ := List.mem_map.1 hin
        have hy2 := hmem y hy
        rw [hfilter] at hy2
        simp at hy2
        exact hy2.2 hy1
      refine ⟨h2, by rw [hstep, hh], ?_, ?_, ?_, ?_, ?_⟩
      · intro x hxin
        rw [hsel] at hxin
        rcases List.mem_cons.1 hxin with hxe | hxr
        · rw [hxe]; exact List.getElem_mem hi2
        · exact (List.eraseIdx_sublist cur i).subset (hmem x hxr)
      · rw [hsel]
        simp only [List.map_cons, List.nodup_cons]
        exact ⟨hnotin, hnd2⟩
      · rw [hfin, hsel]
        generalize selections (cur.eraseIdx i) es = S
        rw [hfilter, List.filter_filter]
        congr 1
        apply List.filter_congr
        intro x _
        by_cases h1 : x.1 = cur[i].1 <;> by_cases h2 : x.1 ∈ List.map Prod.fst S <;>
          simp [h1, h2]
      · rw [hsel, herase, List.length_eraseIdx_of_lt hi] at *
        simp
        omega
      · rw [hsel]; simp; omega

/-- C3 (single use): every finite sequence of events is handled without a panic. With
the rules of the initial table tagged by their positions, the rules picked over the whole
sequence (at most one per event) sit at pairwise distinct positions of the initial table
and are the rules found there; the final table is the initial table without exactly the
picked positions, hence an order-preserving sublist of it, shorter by the number of
picked rules. Any further event leaves a sublist that is shorter by at most one rule. -/
theorem handleEvents_single_use {σ : Type} (quote : String → String) (c : Client σ)
    (h : Handler σ) (es : List WindowEvent) :
    ∃ h1, handleEvents quote c h es = some h1 ∧
      h1.exec.Sublist h.exec ∧
      h1.exec.length + (selections h.exec.enum es).length = h.exec.length ∧
      (selections h.exec.enum es).length ≤ es.length ∧
      ((selections h.exec.enum es).map Prod.fst).Nodup ∧
      (∀ p s, (p, s) ∈ selections h.exec.enum es → h.exec[p]? = some s) ∧
      h1.exec = (h.exec.enum.filter fun x =>
        decide (x.1 ∉ (selections h.exec.enum es).map Prod.fst)).map Prod.snd ∧
      ∀ e, ∃ h2, Window quote c h1 e = some h2 ∧ h2.exec.Sublist h1.exec ∧
        h1.exec.length ≤ h2.exec.length + 1 := by
  obtain ⟨h1, hh, hmem, hnd, hfin, hlen, hle⟩ :=
    handleEvents_selections quote c es h.exec.enum h (List.enum_map_snd h.exec).symm
      (by rw [List.enum_map_fst]; exact List.nodup_range _)
  refine ⟨h1, hh, ?_, hlen, hle, hnd, ?_, hfin, ?_⟩
  · rw [hfin]
    have := (List.filter_sublist (p := fun x =>
      decide (x.1 ∉ (selections h.exec.enum es).map Prod.fst)) h.exec.enum).map Prod.snd
    rwa [List.enum_map_snd] at this
  · intro p s hps
    exact List.mk_mem_enum_iff_getElem?.1 (hmem _ hps)
  · intro e
    obtain ⟨h2, hw, hcase⟩ := Window_exec quote c h1 e
    refine ⟨h2, hw, ?_⟩
    rcases hcase with hsame | ⟨i, s, -, hi, -, herase⟩
    · rw [hsame]; exact ⟨List.Sublist.refl _, by omega⟩
    · rw [herase, List.length_eraseIdx_of_lt hi]
      exact ⟨List.eraseIdx_sublist _ _, by omega⟩

/-! ### The commands issued by `Window` -/

@[simp] theorem checkExhausted_issued {σ : Type} (h : Handler σ) :
    (checkExhausted h).issued = h.issued := by
  unfold checkExhausted
  split <;> rfl

@[simp] theorem checkExhausted_world {σ : Type} (h : Handler σ) :
    (checkExhausted h).world = h.world := by
  unfold checkExhausted
  split <;> rfl

/-- The workspace effect issues the move command exactly when Workspace is set. -/
theorem applyWorkspace_issued {σ : Type} (c : Client σ) (h : Handler σ) (s : Rule)
    (e : WindowEvent) :
    (applyWorkspace c h s e).issued = h.issued ++
      (if s.Workspace ≠ "" then
        ["[con_id=" ++ toString e.Container.ID ++ "] move to workspace " ++ s.Workspace]
      else []) := by
  unfold applyWorkspace
  by_cases hw : s.Workspace = "" <;> simp [hw, runCommand]

/-- The window manager state after the workspace effect. -/
theorem applyWorkspace_world {σ : Type} (c : Client σ) (h : Handler σ) (s : Rule)
    (e : WindowEvent) :
    (applyWorkspace c h s e).world =
      (if s.Workspace ≠ "" then
        (c.RunCommand h.world
          ("[con_id=" ++ toString e.Container.ID ++ "] move to workspace " ++ s.Workspace)).2
      else h.world) := by
  unfold applyWorkspace
  by_cases hw : s.Workspace = "" <;> simp [hw, runCommand]

/-- The layout effect issues one command exactly when Layout is set and the parent lookup
returns a node. -/
theorem applyLayout_issued {σ : Type} (quote : String → String) (c : Client σ)
    (h : Handler σ) (s : Rule) (e : WindowEvent) :
    (applyLayout quote c h s e).issued = h.issued ++
      (if s.Layout ≠ "" then
        match (ParentByConID c h.world e.Container.ID).1 with
        | some p => [layoutCommand quote p s.Layout]
        | none => []
      else []) := by
  unfold applyLayout
  by_cases hl : s.Layout = ""
  · simp [hl]
  · simp only [bne_iff_ne, ne_eq, hl, not_false_eq_true, if_true]
    rcases hp : ParentByConID c h.world e.Container.ID with ⟨_ | p, w1⟩ <;> simp [runCommand]

/-- The floating effect issues its command exactly when Float is true. -/
theorem applyFloat_issued {σ : Type} (c : Client σ) (h : Handler σ) (s : Rule)
    (e : WindowEvent) :
    (applyFloat c h s e).issued = h.issued ++
      (if s.Float = true then
        ["[con_id=" ++ toString e.Container.ID ++ "] floating enable"]
      else []) := by
  unfold applyFloat
  by_cases hf : s.Float = true <;> simp [hf, runCommand]

/-- The follow-up command is issued verbatim exactly when PostCommand is set. -/
theorem applyPostCommand_issued {σ : Type} (c : Client σ) (h : Handler σ) (s : Rule) :
    (applyPostCommand c h s).issued = h.issued ++
      (if s.PostCommand ≠ "" then [s.PostCommand] else []) := by
  unfold applyPostCommand
  by_cases hp : s.PostCommand = "" <;> simp [hp, runCommand]

/-- The commands issued by the effects of a matched rule, in order. -/
theorem applyEffects_issued {σ : Type} (quote : String → String) (c : Client σ)
    (h : Handler σ) (s : Rule) (e : WindowEvent) :
    (applyEffects quote c h s e).issued = h.issued ++
      (if s.Workspace ≠ "" then
        ["[con_id=" ++ toString e.Container.ID ++ "] move to workspace " ++ s.Workspace]
      else []) ++
      (if s.Layout ≠ "" then
        match (ParentByConID c
          (if s.Workspace ≠ "" then
            (c.RunCommand h.world
              ("[con_id=" ++ toString e.Container.ID ++ "] move to workspace " ++
                s.Workspace)).2
          else h.world) e.Container.ID).1 with
        | some p => [layoutCommand quote p s.Layout]
        | none => []
      else []) ++
      (if s.Float = true then
        ["[con_id=" ++ toString e.Container.ID ++ "] floating enable"]
      else []) ++
      (if s.PostCommand ≠ "" then [s.PostCommand] else []) := by
  simp only [applyEffects, applyPostCommand_issued, applyFloat_issued, applyLayout_issued,
    applyWorkspace_issued, applyWorkspace_world]

/-- The state of the window manager after the effects of a matched rule: the commands
are handed to `RunCommand` in order, and the tree is fetched between the move command and
the layout command when Layout is set. -/
theorem applyEffects_world {σ : Type} (quote : String → String) (c : Client σ)
    (h : Handler σ) (s : Rule) (e : WindowEvent) :
    (applyEffects quote c h s e).world =
      handOver c
        (if s.Layout ≠ "" then
          (ParentByConID c
            (if s.Workspace ≠ "" then
              (c.RunCommand h.world
                ("[con_id=" ++ toString e.Container.ID ++ "] move to workspace " ++
                  s.Workspace)).2
            else h.world) e.Container.ID).2
        else
          (if s.Workspace ≠ "" then
            (c.RunCommand h.world
              ("[con_id=" ++ toString e.Container.ID ++ "] move to workspace " ++
                s.Workspace)).2
          else h.world))
        ((if s.Layout ≠ "" then
          match (ParentByConID c
            (if s.Workspace ≠ "" then
              (c.RunCommand h.world
                ("[con_id=" ++ toString e.Container.ID ++ "] move to workspace " ++
                  s.Workspace)).2
            else h.world) e.Container.ID).1 with
          | some p => [layoutCommand quote p s.Layout]
          | none => []
        else []) ++
        (if s.Float = true then
          ["[con_id=" ++ toString e.Container.ID ++ "] floating enable"]
        else []) ++
        (if s.PostCommand ≠ "" then [s.PostCommand] else [])) := by
  have hws := applyWorkspace_world c h s e
  generalize (if s.Workspace ≠ "" then
      (c.RunCommand h.world
        ("[con_id=" ++ toString e.Container.ID ++ "] move to workspace " ++
          s.Workspace)).2
    else h.world) = wm at hws ⊢
  unfold applyEffects
  simp only []
  generalize applyWorkspace c h s e = h0 at hws ⊢
  subst hws
  unfold applyPostCommand applyFloat applyLayout
  by_cases hl : s.Layout = "" <;> by_cases hf : s.Float = true <;>
    by_cases hp : s.PostCommand = ""
  all_goals
    first
    | (simp [hl, hf, hp, handOver, runCommand]; done)
    | (rcases hpar : ParentByConID c h0.world e.Container.ID with ⟨_ | p, w1⟩ <;>
        simp [hl, hf, hp, handOver, runCommand])

/-- C4 (frame): when the change kind of the event is neither "new" nor "title", or when
`found` is set for no rule of the table, `Window` returns normally with the rule table
exactly as it was, with no command issued and with the window manager untouched. -/
theorem Window_frame {σ : Type} (quote : String → String) (c : Client σ) (h : Handler σ)
    (e : WindowEvent)
    (hno : (e.Change ≠ "new" ∧ e.Change ≠ "title") ∨ ∀ r ∈ h.exec, found r e = false) :
    ∃ h1, Window quote c h e = some h1 ∧ h1.exec = h.exec ∧ h1.issued = h.issued ∧
      h1.world = h.world := by
  by_cases hk : e.Change = "new" ∨ e.Change = "title"
  · have hall : ∀ r ∈ h.exec, found r e = false := by
      rcases hno with ⟨h1, h2⟩ | hall
      · rcases hk with hk | hk
        · exact absurd hk h1
        · exact absurd hk h2
      · exact hall
    have hf := (firstFound_eq_none_iff e h.exec 0).2 hall
    exact ⟨_, Window_of_not_found quote c h e hk hf, by simp, by simp, by simp⟩
  · have h1 : e.Change ≠ "new" := fun h => hk (Or.inl h)
    have h2 : e.Change ≠ "title" := fun h => hk (Or.inr h)
    exact ⟨h, Window_of_other_kind quote c h e h1 h2, rfl, rfl, rfl⟩

/-- C4, exercised on the scenario of the specification: the rule asks for application id
"python3" and title "Catia", the event carries the title "Other". -/
theorem Window_frame_witness :
    (((newWindow (window 44 "Other" (some "python3") none)).Change ≠ "new" ∧
        (newWindow (window 44 "Other" (some "python3") none)).Change ≠ "title") ∨
      (∀ r ∈ (freshHandler [{ AppID := "python3", Title := "Catia", Workspace := "5" }]).exec,
        found r (newWindow (window 44 "Other" (some "python3") none)) = false)) ∧
    ∃ h1, Window plainQuote demoClient
        (freshHandler [{ AppID := "python3", Title := "Catia", Workspace := "5" }])
        (newWindow (window 44 "Other" (some "python3") none)) = some h1 ∧
      h1.exec = [{ AppID := "python3", Title := "Catia", Workspace := "5" }] ∧
      h1.issued = [] ∧ h1.world = () :=
  ⟨Or.inr (by decide),
    Window_frame plainQuote demoClient
      (freshHandler [{ AppID := "python3", Title := "Catia", Workspace := "5" }])
      (newWindow (window 44 "Other" (some "python3") none)) (Or.inr (by decide))⟩

/-- C5 (effects in order, best effort): for an event of kind "new" or "title" whose scan
picks the rule `s` at index `i`, and for every window manager (whatever calls it fails),
`Window` returns normally, the picked index has been removed from the table, and the
commands handed to the window manager are, in this order: the move command scoped to the
container iff Workspace is set; one layout command iff Layout is set and the parent
lookup (made in the state the manager is in after the move) returns a node; the floating
command scoped to the container iff Float is true; the PostCommand verbatim iff set.
The window manager ends in the state it reaches when `RunCommand` receives the move
command first, the tree is then fetched for the lookup (iff Layout is set), and
`RunCommand` receives the remaining commands one after the other. -/
theorem Window_effects_in_order {σ : Type} (quote : String → String) (c : Client σ)
    (h : Handler σ) (e : WindowEvent) (hk : e.Change = "new" ∨ e.Change = "title")
    (i : Nat) (s : Rule) (hf : firstFound e h.exec 0 = some (i, s)) :
    ∃ h1, Window quote c h e = some h1 ∧ h1.exec = h.exec.eraseIdx i ∧
      h1.issued = h.issued ++
        (if s.Workspace ≠ "" then
          ["[con_id=" ++ toString e.Container.ID ++ "] move to workspace " ++ s.Workspace]
        else []) ++
        (if s.Layout ≠ "" then
          match (ParentByConID c
            (if s.Workspace ≠ "" then
              (c.RunCommand h.world
                ("[con_id=" ++ toString e.Container.ID ++ "] move to workspace " ++
                  s.Workspace)).2
            else h.world) e.Container.ID).1 with
          | some p => [layoutCommand quote p s.Layout]
          | none => []
        else []) ++
        (if s.Float = true then
          ["[con_id=" ++ toString e.Container.ID ++ "] floating enable"]
        else []) ++
        (if s.PostCommand ≠ "" then [s.PostCommand] else []) ∧
      h1.world =
        handOver c
          (if s.Layout ≠ "" then
            (ParentByConID c
              (if s.Workspace ≠ "" then
                (c.RunCommand h.world
                  ("[con_id=" ++ toString e.Container.ID ++ "] move to workspace " ++
                    s.Workspace)).2
              else h.world) e.Container.ID).2
          else
            (if s.Workspace ≠ "" then
              (c.RunCommand h.world
                ("[con_id=" ++ toString e.Container.ID ++ "] move to workspace " ++
                  s.Workspace)).2
            else h.world))
          ((if s.Layout ≠ "" then
            match (ParentByConID c
              (if s.Workspace ≠ "" then
                (c.RunCommand h.world
                  ("[con_id=" ++ toString e.Container.ID ++ "] move to workspace " ++
                    s.Workspace)).2
              else h.world) e.Container.ID).1 with
            | some p => [layoutCommand quote p s.Layout]
            | none => []
          else []) ++
          (if s.Float = true then
            ["[con_id=" ++ toString e.Container.ID ++ "] floating enable"]
          else []) ++
          (if s.PostCommand ≠ "" then [s.PostCommand] else [])) := by
  refine ⟨_, Window_of_found quote c h e hk i s hf, by simp, ?_, ?_⟩
  · rw [checkExhausted_issued, applyEffects_issued]
  · rw [checkExhausted_world, applyEffects_world]

/-- C5, exercised with a window manager that records the calls it receives and fails
every one of them: all four effects of the rule are set; the tree fetch fails, so no
layout command is issued, and the three other commands are still handed over in order,
as the record of the window manager shows. -/
theorem Window_effects_in_order_witness :
    ((newWindow (window 42 "Slack" none (some "Slack"))).Change = "new" ∨
      (newWindow (window 42 "Slack" none (some "Slack"))).Change = "title") ∧
    firstFound (newWindow (window 42 "Slack" none (some "Slack")))
      (recordingHandler [firefoxRule, slackRule]).exec 0 = some (1, slackRule) ∧
    ∃ h1, Window plainQuote failingRecorder (recordingHandler [firefoxRule, slackRule])
        (newWindow (window 42 "Slack" none (some "Slack"))) = some h1 ∧
      h1.exec = [firefoxRule] ∧
      h1.issued = ["[con_id=42] move to workspace 2", "[con_id=42] floating enable",
        "workspace 2"] ∧
      h1.world = ["[con_id=42] move to workspace 2", "get_tree",
        "[con_id=42] floating enable", "workspace 2"] := by
  obtain ⟨h1, hw, he, hi, hwd⟩ := Window_effects_in_order plainQuote failingRecorder
    (recordingHandler [firefoxRule, slackRule])
    (newWindow (window 42 "Slack" none (some "Slack"))) (Or.inl rfl) 1 slackRule
    (by decide)
  refine ⟨Or.inl rfl, by decide, h1, hw, ?_, ?_, ?_⟩
  · rw [he]; rfl
  · rw [hi]; decide
  · rw [hwd]; decide

/-- C6 (scope of the layout command): for an event of kind "new" or "title" whose scan
picks a rule `s` with a non-empty Layout, the commands issued are the move command (iff
Workspace is set), then the layout command, then the floating and follow-up commands (iff
set). The layout command is scoped by the quoted name of the parent when the parent
lookup returns a node of type "workspace", by the id of the parent when it returns a node
of any other type, and is absent when the lookup returns no node; the other effects are
applied in all three cases. In each case the window manager ends in the state it reaches
when, after the tree fetch of the lookup, `RunCommand` receives the layout command (if
any) and then the floating and follow-up commands. -/
theorem Window_layout_scope {σ : Type} (quote : String → String) (c : Client σ)
    (h : Handler σ) (e : WindowEvent) (hk : e.Change = "new" ∨ e.Change = "title")
    (i : Nat) (s : Rule) (hf : firstFound e h.exec 0 = some (i, s))
    (hl : s.Layout ≠ "") (before after : List String) (w : σ)
    (hbefore : before = h.issued ++
      (if s.Workspace ≠ "" then
        ["[con_id=" ++ toString e.Container.ID ++ "] move to workspace " ++ s.Workspace]
      else []))
    (hafter : after =
      (if s.Float = true then
        ["[con_id=" ++ toString e.Container.ID ++ "] floating enable"]
      else []) ++
      (if s.PostCommand ≠ "" then [s.PostCommand] else []))
    (hworld : w =
      (if s.Workspace ≠ "" then
        (c.RunCommand h.world
          ("[con_id=" ++ toString e.Container.ID ++ "] move to workspace " ++
            s.Workspace)).2
      else h.world)) :
    ∃ h1, Window quote c h e = some h1 ∧
      (∀ p, (ParentByConID c w e.Container.ID).1 = some p → p.NodeType = "workspace" →
        h1.issued =
          before ++ ["[workspace=" ++ quote p.Name ++ "] layout " ++ s.Layout] ++ after ∧
        h1.world = handOver c (ParentByConID c w e.Container.ID).2
          (["[workspace=" ++ quote p.Name ++ "] layout " ++ s.Layout] ++ after)) ∧
      (∀ p, (ParentByConID c w e.Container.ID).1 = some p → p.NodeType ≠ "workspace" →
        h1.issued =
          before ++ ["[con_id=" ++ toString p.ID ++ "] layout " ++ s.Layout] ++ after ∧
        h1.world = handOver c (ParentByConID c w e.Container.ID).2
          (["[con_id=" ++ toString p.ID ++ "] layout " ++ s.Layout] ++ after)) ∧
      ((ParentByConID c w e.Container.ID).1 = none →
        h1.issued = before ++ after ∧
        h1.world = handOver c (ParentByConID c w e.Container.ID).2 after) := by
  refine ⟨_, Window_of_found quote c h e hk i s hf, ?_, ?_, ?_⟩
  · intro p hp hty
    constructor
    · rw [checkExhausted_issued, applyEffects_issued, ← hworld, hp, hbefore, hafter]
      simp [hl, layoutCommand, hty]
    · rw [checkExhausted_world, applyEffects_world, ← hworld, hp, hafter]
      simp [hl, layoutCommand, hty]
  · intro p hp hty
    constructor
    · rw [checkExhausted_issued, applyEffects_issued, ← hworld, hp, hbefore, hafter]
      simp [hl, layoutCommand, hty]
    · rw [checkExhausted_world, applyEffects_world, ← hworld, hp, hafter]
      simp [hl, layoutCommand, hty]
  · intro hp
    constructor
    · rw [checkExhausted_issued, applyEffects_issued, ← hworld, hp, hbefore, hafter]
      simp [hl]
    · rw [checkExhausted_world, applyEffects_world, ← hworld, hp, hafter]
      simp [hl]

/-! ### The breadth-first search -/

theorem search_nil (conID : Int) : search conID [] = none := by
  rw [search]

theorem search_cons_none (conID : Int) (q : qNode) (r : List qNode) (hq : q.Node = none) :
    search conID (q :: r) = search conID r := by
  rw [search]
  split
  · rfl
  · rename_i n hn
    rw [hq] at hn
    cases hn

theorem search_cons_hit (conID : Int) (q : qNode) (r : List qNode) (n : Node)
    (hq : q.Node = some n) (hid : n.ID = conID) : search conID (q :: r) = q.Parent := by
  rw [search]
  split
  · rename_i hn
    rw [hq] at hn
    cases hn
  · rename_i m hm
    rw [hq] at hm
    cases hm
    simp [hid]

theorem search_cons_miss (conID : Int) (q : qNode) (r : List qNode) (n : Node)
    (hq : q.Node = some n) (hid : n.ID ≠ conID) :
    search conID (q :: r) =
      search conID (r ++ enqueue n n.Nodes ++ enqueue n n.FloatingNodes) := by
  rw [search]
  split
  · rename_i hn
    rw [hq] at hn
    cases hn
  · rename_i m hm
    rw [hq] at hm
    cases hm
    simp [hid]

/-- The pairs below a node in terms of its fields. -/
theorem Node.edges_eq (n : Node) :
    n.edges = Node.edgesList (some n) n.Nodes ++ Node.edgesList (some n) n.FloatingNodes := by
  cases n; simp [Node.edges]

theorem Node.edgesList_append (par : Option Node) (a b : List (Option Node)) :
    Node.edgesList par (a ++ b) = Node.edgesList par a ++ Node.edgesList par b := by
  induction a with
  | nil => simp [Node.edgesList]
  | cons x r ih =>
    cases x with
    | none => simpa [Node.edgesList] using ih
    | some n => simp [Node.edgesList, ih]

/-- A non-nil entry of a list of children is paired with the parent of the list. -/
theorem Node.mem_edgesList_of_mem (par : Option Node) (l : List (Option Node)) (ch : Node)
    (h : some ch ∈ l) : (par, ch) ∈ Node.edgesList par l := by
  induction l with
  | nil => simp at h
  | cons x r ih =>
    cases x with
    | none =>
      simp only [List.mem_cons] at h
      rcases h with h | h
      · cases h
      · simpa [Node.edgesList] using ih h
    | some n =>
      simp only [List.mem_cons, Option.some.injEq] at h
      rcases h with h | h
      · subst h; simp [Node.edgesList]
      · simp [Node.edgesList, ih h]

mutual
/-- Whatever lies below a node of a tree lies below the root of the tree. -/
theorem Node.edges_trans (t : Node) (q : Option Node) (p : Node) (h : (q, p) ∈ t.edges)
    (x : Option Node × Node) (hx : x ∈ p.edges) : x ∈ t.edges := by
  match t with
  | ⟨a, b, c, d, e, ns, fs⟩ =>
    rw [Node.edges_eq] at h ⊢
    simp only [List.mem_append] at h ⊢
    rcases h with h | h
    · exact Or.inl (Node.edgesList_trans _ ns q p h x hx)
    · exact Or.inr (Node.edgesList_trans _ fs q p h x hx)
/-- Whatever lies below a node found under a list of children lies under that list. -/
theorem Node.edgesList_trans (par : Option Node) (l : List (Option Node)) (q : Option Node)
    (p : Node) (h : (q, p) ∈ Node.edgesList par l)
    (x : Option Node × Node) (hx : x ∈ p.edges) : x ∈ Node.edgesList par l := by
  match l with
  | [] => simp [Node.edgesList] at h
  | none :: r =>
    simp only [Node.edgesList] at h ⊢
    exact Node.edgesList_trans par r q p h x hx
  | some c :: r =>
    simp only [Node.edgesList, List.mem_cons, List.mem_append] at h ⊢
    rcases h with h | h | h
    · have hpc : p = c := by simpa using (congrArg Prod.snd h)
      subst hpc
      exact Or.inr (Or.inl hx)
    · exact Or.inr (Or.inl (Node.edges_trans c q p h x hx))
    · exact Or.inr (Or.inr (Node.edgesList_trans par r q p h x hx))
end

/-- A direct child of a node of the tree is paired with that node among the pairs of the
tree. -/
theorem Node.mem_edges_of_child (t p ch : Node) (hp : p ∈ t.nodes)
    (hc : some ch ∈ p.Nodes ∨ some ch ∈ p.FloatingNodes) : (some p, ch) ∈ t.edges := by
  have hown : (some p, ch) ∈ p.edges := by
    rw [Node.edges_eq, List.mem_append]
    rcases hc with hc | hc
    · exact Or.inl (Node.mem_edgesList_of_mem _ _ _ hc)
    · exact Or.inr (Node.mem_edgesList_of_mem _ _ _ hc)
  simp only [Node.nodes, List.mem_cons, List.mem_map] at hp
  rcases hp with hp | ⟨⟨q, p1⟩, hq, hq1⟩
  · subst hp; exact hown
  · simp only at hq1
    subst hq1
    exact Node.edges_trans t q p1 hq _ hown

theorem reach_append (a b : List qNode) : reach (a ++ b) = reach a ++ reach b := by
  induction a with
  | nil => simp [reach]
  | cons x r ih => simp [reach, ih]

theorem reach_enqueue (n : Node) (cs : List (Option Node)) :
    reach (enqueue n cs) = Node.edgesList (some n) cs := by
  induction cs with
  | nil => simp [enqueue, reach, Node.edgesList]
  | cons x r ih =>
    have h : enqueue n (x :: r) = { Parent := some n, Node := x } :: enqueue n r := by
      simp [enqueue]
    rw [h, reach, ih]
    cases x with
    | none => simp [Node.edgesList]
    | some m =>
      simp only [Node.edgesList, List.append_nil, List.cons_append, List.cons.injEq, true_and]

/-- What the queue leads to once a node that is not the target has been taken off and its
children have been appended. -/
theorem reach_step (q : qNode) (r : List qNode) (n : Node) (hq : q.Node = some n) :
    reach (q :: r) = (q.Parent, n) :: (n.edges ++ reach r) ∧
    reach (r ++ enqueue n n.Nodes ++ enqueue n n.FloatingNodes) = reach r ++ n.edges := by
  constructor
  · simp [reach, hq, Node.edgesList]
  · rw [reach_append, reach_append, reach_enqueue, reach_enqueue, Node.edges_eq,
      List.append_assoc]

/-- The search returns nil when no node the queue leads to has the wanted id. -/
theorem search_eq_none (conID : Int) (queue : List qNode) :
    (∀ x ∈ reach queue, x.2.ID ≠ conID) → search conID queue = none := by
  induction queue using search.induct conID with
  | case1 => intro _; exact search_nil conID
  | case2 q r hq ih =>
    intro hall
    rw [search_cons_none conID q r hq]
    apply ih
    intro x hx
    exact hall x (by simp [reach, hq, Node.edgesList, hx])
  | case3 q r n hq hid =>
    intro hall
    exact absurd hid (hall (q.Parent, n) (by rw [(reach_step q r n hq).1]; simp))
  | case4 q r n hq hid ih =>
    intro hall
    rw [search_cons_miss conID q r n hq hid]
    apply ih
    intro x hx
    rw [(reach_step q r n hq).2] at hx
    apply hall x
    rw [(reach_step q r n hq).1]
    simp only [List.mem_cons, List.mem_append] at hx ⊢
    tauto

/-- With pairwise distinct ids among the nodes the queue leads to, the search returns the
parent paired with the node that has the wanted id. -/
theorem search_eq_parent (conID : Int) (queue : List qNode) :
    ((reach queue).map fun x => x.2.ID).Nodup →
      ∀ (p : Option Node) (ch : Node), (p, ch) ∈ reach queue → ch.ID = conID →
        search conID queue = p := by
  induction queue using search.induct conID with
  | case1 => intro _ p ch h; simp [reach] at h
  | case2 q r hq ih =>
    intro hnd p ch hmem hid
    rw [search_cons_none conID q r hq]
    have hr : reach (q :: r) = reach r := by simp [reach, hq, Node.edgesList]
    rw [hr] at hnd hmem
    exact ih hnd p ch hmem hid
  | case3 q r n hq hn =>
    intro hnd p ch hmem hid
    rw [search_cons_hit conID q r n hq hn]
    rw [(reach_step q r n hq).1] at hnd hmem
    simp only [List.map_cons, List.nodup_cons, List.mem_map, not_exists, not_and] at hnd
    rcases List.mem_cons.1 hmem with heq | hin
    · exact (congrArg Prod.fst heq).symm
    · exact absurd (hid.trans hn.symm) (hnd.1 (p, ch) hin)
  | case4 q r n hq hn ih =>
    intro hnd p ch hmem hid
    rw [search_cons_miss conID q r n hq hn]
    rw [(reach_step q r n hq).1] at hnd hmem
    apply ih _ p ch _ hid
    · rw [(reach_step q r n hq).2]
      simp only [List.map_cons, List.nodup_cons] at hnd
      exact (List.Perm.nodup_iff (List.Perm.map _ List.perm_append_comm)).1 hnd.2
    · rw [(reach_step q r n hq).2]
      rcases List.mem_cons.1 hmem with heq | hin
      · have : ch = n := congrArg Prod.snd heq
        exact absurd (this ▸ hid) hn
      · simp only [List.mem_append] at hin ⊢
        tauto

/-- The ids of the nodes the initial queue leads to are the ids of the nodes of the tree. -/
theorem reach_root (t : Node) :
    reach [{ Parent := none, Node := some t }] = (none, t) :: t.edges := by
  simp [reach, Node.edgesList]

/-- C7: when the fetched tree has pairwise distinct node ids, then for every node `p` of
the tree and every node `ch` listed among the normal children or among the floating
children of `p` (so `ch` is any non-root node, at any depth), `ParentByConID` called with
the id of `ch` returns `p`. -/
theorem ParentByConID_parent {σ : Type} (c : Client σ) (w : σ) (t p ch : Node)
    (hfetch : (c.GetTree w).1 = .ok (some t))
    (hids : (t.nodes.map Node.ID).Nodup)
    (hp : p ∈ t.nodes)
    (hc : some ch ∈ p.Nodes ∨ some ch ∈ p.FloatingNodes) :
    (ParentByConID c w ch.ID).1 = some p := by
  have hedge := Node.mem_edges_of_child t p ch hp hc
  have hsearch : search ch.ID [{ Parent := none, Node := some t }] = some p := by
    apply search_eq_parent ch.ID _ _ (some p) ch _ rfl
    · rw [reach_root]
      simpa [Node.nodes, Function.comp_def] using hids
    · rw [reach_root]
      exact List.mem_cons_of_mem _ hedge
  unfold ParentByConID
  rcases hg : c.GetTree w with ⟨r, w1⟩
  rw [hg] at hfetch
  simp only at hfetch
  subst hfetch
  simp [hsearch]

/-- C7, exercised on the floating window 50 of the workspace three levels down. -/
theorem ParentByConID_parent_witness :
    (demoClient.GetTree ()).1 = .ok (some demoTree) ∧
    (demoTree.nodes.map Node.ID).Nodup ∧
    demoWorkspace ∈ demoTree.nodes ∧
    (some (window 50 "Volume Control" (some "pavucontrol") none) ∈ demoWorkspace.Nodes ∨
      some (window 50 "Volume Control" (some "pavucontrol") none) ∈
        demoWorkspace.FloatingNodes) ∧
    (ParentByConID demoClient () 50).1 = some demoWorkspace :=
  have hids : (demoTree.nodes.map Node.ID).Nodup := by decide
  have hp : demoWorkspace ∈ demoTree.nodes := by
    simp [Node.nodes, Node.edges, Node.edgesList, demoTree]
  have hc : some (window 50 "Volume Control" (some "pavucontrol") none) ∈ demoWorkspace.Nodes ∨
      some (window 50 "Volume Control" (some "pavucontrol") none) ∈
        demoWorkspace.FloatingNodes := Or.inr (by simp [demoWorkspace])
  ⟨rfl, hids, hp, hc,
    ParentByConID_parent demoClient () demoTree demoWorkspace
      (window 50 "Volume Control" (some "pavucontrol") none) rfl hids hp hc⟩

/-- C8: `ParentByConID` is a total function (the search loop terminates on every tree,
its queue weight drops with every iteration) and it returns nil when the tree fetch
fails, when the fetched root is nil, and when no node of the fetched tree has the wanted
id; nil child entries are skipped. -/
theorem ParentByConID_not_found {σ : Type} (c : Client σ) (w : σ) (conID : Int)
    (h : (∃ msg, (c.GetTree w).1 = .error msg) ∨ (c.GetTree w).1 = .ok none ∨
      ∃ t, (c.GetTree w).1 = .ok (some t) ∧ ∀ n ∈ t.nodes, n.ID ≠ conID) :
    (ParentByConID c w conID).1 = none := by
  unfold ParentByConID
  rcases hg : c.GetTree w with ⟨r, w1⟩
  rw [hg] at h
  simp only at h
  rcases h with ⟨msg, h⟩ | h | ⟨t, h, hall⟩
  · subst h; rfl
  · subst h
    simp only
    rw [search_cons_none conID _ _ rfl, search_nil]
  · subst h
    simp only
    apply search_eq_none
    intro x hx
    rw [reach_root] at hx
    apply hall
    simp only [Node.nodes, List.mem_cons, List.mem_map]
    rcases List.mem_cons.1 hx with hx | hx
    · left; rw [hx]
    · right; exact ⟨x, hx, rfl⟩

/-- C8, exercised on an id that no node of the tree carries. -/
theorem ParentByConID_not_found_witness :
    ((∃ msg, (demoClient.GetTree ()).1 = .error msg) ∨ (demoClient.GetTree ()).1 = .ok none ∨
      ∃ t, (demoClient.GetTree ()).1 = .ok (some t) ∧ ∀ n ∈ t.nodes, n.ID ≠ 99) ∧
    (ParentByConID demoClient () 99).1 = none :=
  have h : (∃ msg, (demoClient.GetTree ()).1 = .error msg) ∨
      (demoClient.GetTree ()).1 = .ok none ∨
      ∃ t, (demoClient.GetTree ()).1 = .ok (some t) ∧ ∀ n ∈ t.nodes, n.ID ≠ 99 :=
    Or.inr (Or.inr ⟨demoTree, rfl, by decide⟩)
  ⟨h, ParentByConID_not_found demoClient () 99 h⟩

/-- In the demonstration tree the parent of window 42 is the workspace. -/
theorem demo_parent_of_42 : (ParentByConID demoClient () 42).1 = some demoWorkspace := by
  simp [ParentByConID, demoClient, demoTree, search, enqueue, demoWorkspace, window,
    demoSplit]

/-- With the recording window manager the parent of window 42 is the workspace, and the
tree fetch is recorded. -/
theorem recording_parent_of_42 (w : List String) :
    ParentByConID recordingClient w 42 = (some demoWorkspace, w ++ ["get_tree"]) := by
  simp [ParentByConID, recordingClient, demoTree, search, enqueue, demoWorkspace, window,
    demoSplit]

/-- C6, exercised on the scenario of the specification with a window manager that records
the calls it receives: window 42 of class "Slack" sits directly in workspace "2", so the
layout command is scoped by the workspace name, and the record shows the move command,
the tree fetch, the layout command and the two other commands in this order. -/
theorem Window_layout_scope_witness :
    ((newWindow (window 42 "Slack" none (some "Slack"))).Change = "new" ∨
      (newWindow (window 42 "Slack" none (some "Slack"))).Change = "title") ∧
    firstFound (newWindow (window 42 "Slack" none (some "Slack")))
      (recordingHandler [slackRule]).exec 0 = some (0, slackRule) ∧
    slackRule.Layout ≠ "" ∧
    (ParentByConID recordingClient ["[con_id=42] move to workspace 2"] 42).1 =
      some demoWorkspace ∧
    demoWorkspace.NodeType = "workspace" ∧
    ∃ h1, Window plainQuote recordingClient (recordingHandler [slackRule])
        (newWindow (window 42 "Slack" none (some "Slack"))) = some h1 ∧
      h1.issued = ["[con_id=42] move to workspace 2", "[workspace=\"2\"] layout tabbed",
        "[con_id=42] floating enable", "workspace 2"] ∧
      h1.world = ["[con_id=42] move to workspace 2", "get_tree",
        "[workspace=\"2\"] layout tabbed", "[con_id=42] floating enable",
        "workspace 2"] := by
  have hparent : (ParentByConID recordingClient ["[con_id=42] move to workspace 2"] 42).1 =
      some demoWorkspace := by
    rw [recording_parent_of_42]
  obtain ⟨h1, hw, hws, -, -⟩ := Window_layout_scope plainQuote recordingClient
    (recordingHandler [slackRule]) (newWindow (window 42 "Slack" none (some "Slack")))
    (Or.inl rfl) 0 slackRule (by decide) (by decide) _ _
    ["[con_id=42] move to workspace 2"] rfl rfl rfl
  obtain ⟨hi, hwd⟩ := hws demoWorkspace hparent rfl
  refine ⟨Or.inl rfl, by decide, by decide, hparent, rfl, h1, hw, ?_, ?_⟩
  · rw [hi]; decide
  · rw [hwd]
    change handOver recordingClient
      (ParentByConID recordingClient ["[con_id=42] move to workspace 2"] 42).2 _ = _
    rw [recording_parent_of_42]
    decide

/-! ### Exhaustion of the table -/

theorem checkExhausted_unsubscribed {σ : Type} (h : Handler σ) :
    (checkExhausted h).unsubscribed = h.unsubscribed + (if h.exec = [] then 1 else 0) := by
  unfold checkExhausted
  by_cases he : h.exec = []
  · simp [he]
  · have : h.exec.length ≠ 0 := fun hl => he (List.length_eq_zero.1 hl)
    simp [he, this]

/-- One call of `Window` calls `unsubscribe` exactly when the event is of kind "new" or
"title" and the table is empty when the loop has been left. -/
theorem Window_unsubscribed {σ : Type} (quote : String → String) (c : Client σ)
    (h h1 : Handler σ) (e : WindowEvent) (hw : Window quote c h e = some h1) :
    h1.unsubscribed = h.unsubscribed +
      (if (e.Change = "new" ∨ e.Change = "title") ∧ h1.exec = [] then 1 else 0) := by
  by_cases hk : e.Change = "new" ∨ e.Change = "title"
  · cases hf : firstFound e h.exec 0 with
    | none =>
      rw [Window_of_not_found quote c h e hk hf] at hw
      cases hw
      rw [checkExhausted_unsubscribed]
      simp [hk]
    | some p =>
      obtain ⟨i, s⟩ := p
      rw [Window_of_found quote c h e hk i s hf] at hw
      cases hw
      rw [checkExhausted_unsubscribed]
      simp [hk]
  · have h1k : e.Change ≠ "new" := fun h => hk (Or.inl h)
    have h2k : e.Change ≠ "title" := fun h => hk (Or.inr h)
    rw [Window_of_other_kind quote c h e h1k h2k] at hw
    cases hw
    simp [hk]

/-- The table after a sequence of events is a sublist of the table before it. -/
theorem handleEvents_sublist {σ : Type} (quote : String → String) (c : Client σ)
    (es : List WindowEvent) (h h1 : Handler σ) (hh : handleEvents quote c h es = some h1) :
    h1.exec.Sublist h.exec := by
  obtain ⟨h2, hh2, -, -, hfin, -, -⟩ := handleEvents_selections quote c es h.exec.enum h
    (List.enum_map_snd h.exec).symm
    (by rw [List.enum_map_fst]; exact List.nodup_range _)
  rw [hh] at hh2
  cases hh2
  rw [hfin]
  have := (List.filter_sublist (p := fun x =>
    decide (x.1 ∉ (selections h.exec.enum es).map Prod.fst)) h.exec.enum).map Prod.snd
  rwa [List.enum_map_snd] at this

/-- While the table is not empty at the end of a sequence of events, `unsubscribe` has
not been called during the sequence. -/
theorem handleEvents_unsubscribed_of_ne_nil {σ : Type} (quote : String → String)
    (c : Client σ) (es : List WindowEvent) :
    ∀ (h h1 : Handler σ), handleEvents quote c h es = some h1 → h1.exec ≠ [] →
      h1.unsubscribed = h.unsubscribed := by
  induction es with
  | nil =>
    intro h h1 hh _
    simp [handleEvents] at hh
    rw [hh]
  | cons e es ih =>
    intro h h1 hh hne
    obtain ⟨hm, hw, -⟩ := Window_exec quote c h e
    have hstep : handleEvents quote c h (e :: es) = handleEvents quote c hm es := by
      simp [handleEvents, hw]
    rw [hstep] at hh
    have hsub : h1.exec.Sublist hm.exec := handleEvents_sublist quote c es hm h1 hh
    have hmne : hm.exec ≠ [] := by
      intro hnil
      rw [hnil] at hsub
      exact hne (List.sublist_nil.1 hsub)
    rw [ih hm h1 hh hne, Window_unsubscribed quote c h hm e hw]
    simp [hmne]

/-- On an empty table every event is handled without selecting a rule; the table stays
empty and every event of kind "new" or "title" calls `unsubscribe` again. -/
theorem handleEvents_of_nil {σ : Type} (quote : String → String) (c : Client σ)
    (es : List WindowEvent) :
    ∀ (h : Handler σ), h.exec = [] →
      ∃ h1, handleEvents quote c h es = some h1 ∧ h1.exec = [] ∧
        h1.unsubscribed = h.unsubscribed +
          (es.filter fun e => decide (e.Change = "new" ∨ e.Change = "title")).length := by
  induction es with
  | nil => intro h he; exact ⟨h, rfl, he, by simp⟩
  | cons e es ih =>
    intro h he
    obtain ⟨hm, hw, hcase⟩ := Window_exec quote c h e
    have hmnil : hm.exec = [] := by
      rcases hcase with hsame | ⟨i, s, -, hi, -, -⟩
      · rw [hsame, he]
      · rw [he] at hi; simp at hi
    obtain ⟨h1, hh, h1nil, hcount⟩ := ih hm hmnil
    refine ⟨h1, by simp [handleEvents, hw, hh], h1nil, ?_⟩
    rw [hcount, Window_unsubscribed quote c h hm e hw]
    by_cases hk : e.Change = "new" ∨ e.Change = "title"
    · simp [hk, hmnil, List.filter_cons]; omega
    · simp [hk, List.filter_cons]

/-- A sequence of events handled in two parts. -/
theorem handleEvents_append {σ : Type} (quote : String → String) (c : Client σ)
    (a b : List WindowEvent) :
    ∀ (h : Handler σ), handleEvents quote c h (a ++ b) =
      (handleEvents quote c h a).bind fun hm => handleEvents quote c hm b := by
  induction a with
  | nil => intro h; simp [handleEvents]
  | cons e a ih =>
    intro h
    cases hw : Window quote c h e with
    | none => simp [handleEvents, hw]
    | some hm => simp [handleEvents, hw, ih hm]

/-- C9, refuted as stated: the table holds one rule with a match predicate; the first
event removes it and `unsubscribe` is called; the same event handled once more finds the
table empty and `unsubscribe` is called a second time. -/
theorem unsubscribe_called_twice :
    (∀ r ∈ [discordRule], r.AppID ≠ "" ∨ r.Class ≠ "") ∧
    (handleEvents plainQuote demoClient (freshHandler [discordRule])
      [discordEvent, discordEvent]).map (fun h => (h.exec, h.unsubscribed)) =
        some ([], 2) := by
  decide

/-- C9, amended: when the table is not empty after the events `es1` and the next event `e`
leaves it empty, then `unsubscribe` has not been called during `es1`, it is called once
during the handling of `e`, and of the events `es2` handled afterwards none selects a
rule (the scan finds nothing in the table each of them meets), the table stays empty, and
`unsubscribe` is called once more for each of them that is of kind "new" or "title". -/
theorem unsubscribe_on_exhaustion {σ : Type} (quote : String → String) (c : Client σ)
    (h h1 h2 : Handler σ) (es1 : List WindowEvent) (e : WindowEvent)
    (es2 : List WindowEvent)
    (hes1 : handleEvents quote c h es1 = some h1) (hne : h1.exec ≠ [])
    (he : Window quote c h1 e = some h2) (hempty : h2.exec = []) :
    h1.unsubscribed = h.unsubscribed ∧
    h2.unsubscribed = h1.unsubscribed + 1 ∧
    ∃ h3, handleEvents quote c h (es1 ++ e :: es2) = some h3 ∧ h3.exec = [] ∧
      h3.unsubscribed = h.unsubscribed + 1 +
        (es2.filter fun e1 => decide (e1.Change = "new" ∨ e1.Change = "title")).length ∧
      ∀ a e1 b, es2 = a ++ e1 :: b →
        ∃ hm, handleEvents quote c h2 a = some hm ∧ firstFound e1 hm.exec 0 = none := by
  have hbefore := handleEvents_unsubscribed_of_ne_nil quote c es1 h h1 hes1 hne
  have hk : e.Change = "new" ∨ e.Change = "title" := by
    obtain ⟨h2a, hw, hcase⟩ := Window_exec quote c h1 e
    rw [he] at hw
    cases hw
    rcases hcase with hsame | ⟨_, _, -, -, hk, -⟩
    · rw [hempty] at hsame
      exact absurd hsame.symm hne
    · exact hk
  have hduring : h2.unsubscribed = h1.unsubscribed + 1 := by
    rw [Window_unsubscribed quote c h1 h2 e he]
    simp [hk, hempty]
  obtain ⟨h3, hh3, h3nil, hcount⟩ := handleEvents_of_nil quote c es2 h2 hempty
  refine ⟨hbefore, hduring, h3, ?_, h3nil, ?_, ?_⟩
  · rw [handleEvents_append, hes1]
    simp [handleEvents, he, hh3]
  · rw [hcount, hduring, hbefore]
  · intro a e1 b _
    obtain ⟨hm, hhm, hmnil, -⟩ := handleEvents_of_nil quote c a h2 hempty
    exact ⟨hm, hhm, by rw [hmnil]; rfl⟩

/-- C9 as amended, exercised on a table of two rules: the first event removes one rule,
the second removes the last one, and two more events follow, one of them of another
kind. -/
theorem unsubscribe_on_exhaustion_witness :
    handleEvents plainQuote demoClient (freshHandler [discordRule, firefoxRule])
      [discordEvent] = some
        { exec := [firefoxRule], world := (), issued := ["[con_id=60] move to workspace 2"],
          unsubscribed := 0 } ∧
    Window plainQuote demoClient
      { exec := [firefoxRule], world := (), issued := ["[con_id=60] move to workspace 2"],
        unsubscribed := 0 }
      (newWindow (window 43 "Mozilla Firefox" (some "firefox") none)) = some
        { exec := [], world := (),
          issued := ["[con_id=60] move to workspace 2", "[con_id=43] move to workspace 3"],
          unsubscribed := 1 } ∧
    ∃ h3, handleEvents plainQuote demoClient (freshHandler [discordRule, firefoxRule])
        ([discordEvent] ++ newWindow (window 43 "Mozilla Firefox" (some "firefox") none) ::
          [discordEvent, { Change := "close", Container := window 43 "" none none }]) =
        some h3 ∧
      h3.exec = [] ∧ h3.unsubscribed = 2 := by
  have h1 : handleEvents plainQuote demoClient (freshHandler [discordRule, firefoxRule])
      [discordEvent] = some
        { exec := [firefoxRule], world := (), issued := ["[con_id=60] move to workspace 2"],
          unsubscribed := 0 } := by
    rfl
  have h2 : Window plainQuote demoClient
      { exec := [firefoxRule], world := (), issued := ["[con_id=60] move to workspace 2"],
        unsubscribed := 0 }
      (newWindow (window 43 "Mozilla Firefox" (some "firefox") none)) = some
        { exec := [], world := (),
          issued := ["[con_id=60] move to workspace 2", "[con_id=43] move to workspace 3"],
          unsubscribed := 1 } := by
    rfl
  obtain ⟨-, -, h3, hh3, hnil, hcount, -⟩ := unsubscribe_on_exhaustion plainQuote demoClient
    (freshHandler [discordRule, firefoxRule]) _ _ [discordEvent]
    (newWindow (window 43 "Mozilla Firefox" (some "firefox") none))
    [discordEvent, { Change := "close", Container := window 43 "" none none }]
    h1 (by simp) h2 rfl
  exact ⟨h1, h2, h3, hh3, hnil, by rw [hcount]; rfl⟩

/-! ### The launch loop -/

/-- An iteration whose rule has a match field changes neither the table nor the array. -/
theorem launchStep_keep {σ : Type} (c : Client σ) (st : Launch σ) (i : Nat) (s : Rule)
    (hs : st.backing[i]? = some s) (hm : noMatchFields s = false) :
    ∃ st1, launchStep c st i = some st1 ∧ st1.exec = st.exec ∧
      st1.backing = st.backing := by
  unfold launchStep
  rw [hs]
  simp only [hm]
  by_cases hc : s.Command = "" <;> simp [hc]

/-- An iteration whose rule has no match field calls `delExecIndex` with the loop index. -/
theorem launchStep_delete {σ : Type} (c : Client σ) (st : Launch σ) (i : Nat) (s : Rule)
    (t : List Rule) (hs : st.backing[i]? = some s) (hm : noMatchFields s = true)
    (hd : delExecIndex st.exec i = some t) :
    ∃ st1, launchStep c st i = some st1 ∧ st1.exec = t ∧
      st1.backing = t ++ st.backing.drop t.length := by
  unfold launchStep
  rw [hs]
  simp only [hm]
  by_cases hc : s.Command = "" <;> simp [hc, hd]

/-- Iterations over rules that all have a match field change neither the table nor the
array. -/
theorem launchLoop_keep {σ : Type} (c : Client σ) (is : List Nat) :
    ∀ (st : Launch σ),
      (∀ i ∈ is, ∃ s, st.backing[i]? = some s ∧ noMatchFields s = false) →
      ∃ st1, launchLoop c is st = some st1 ∧ st1.exec = st.exec ∧
        st1.backing = st.backing := by
  induction is with
  | nil => intro st _; exact ⟨st, rfl, rfl, rfl⟩
  | cons i is ih =>
    intro st hall
    obtain ⟨s, hs, hm⟩ := hall i (List.mem_cons_self i is)
    obtain ⟨st1, h1, he1, hb1⟩ := launchStep_keep c st i s hs hm
    obtain ⟨st2, h2, he2, hb2⟩ := ih st1 (by
      intro j hj
      rw [hb1]
      exact hall j (List.mem_cons_of_mem i hj))
    exact ⟨st2, by simp [launchLoop, h1, h2], by rw [he2, he1], by rw [hb2, hb1]⟩

/-- The iterations of the launch loop, in two parts. -/
theorem launchLoop_append {σ : Type} (c : Client σ) (a b : List Nat) :
    ∀ (st : Launch σ), launchLoop c (a ++ b) st =
      (launchLoop c a st).bind fun st1 => launchLoop c b st1 := by
  induction a with
  | nil => intro st; simp [launchLoop]
  | cons i a ih =>
    intro st
    cases h1 : launchStep c st i with
    | none => simp [launchLoop, h1]
    | some st1 => simp [launchLoop, h1, ih st1]

/-- A table with at most one rule without match fields has none, or splits around it. -/
theorem split_at_noMatchFields (l : List Rule)
    (hone : (l.filter noMatchFields).length ≤ 1) :
    (∀ r ∈ l, noMatchFields r = false) ∨
    ∃ a u b, l = a ++ u :: b ∧ noMatchFields u = true ∧
      (∀ r ∈ a, noMatchFields r = false) ∧ (∀ r ∈ b, noMatchFields r = false) := by
  induction l with
  | nil => left; simp
  | cons x r ih =>
    by_cases hx : noMatchFields x = true
    · right
      refine ⟨[], x, r, rfl, hx, by simp, ?_⟩
      simp only [List.filter_cons, hx, if_true, List.length_cons] at hone
      have hnil : r.filter noMatchFields = [] := List.length_eq_zero.1 (by omega)
      intro y hy
      by_contra hne
      have : y ∈ r.filter noMatchFields := List.mem_filter.2 ⟨hy, by simpa using hne⟩
      rw [hnil] at this
      simp at this
    · have hx0 : noMatchFields x = false := by simpa using hx
      simp only [List.filter_cons, hx0, Bool.false_eq_true, if_false] at hone
      rcases ih hone with hall | ⟨a, u, b, hl, hu, ha, hb⟩
      · left
        intro y hy
        rcases List.mem_cons.1 hy with h | h
        · rw [h]; exact hx0
        · exact hall y h
      · right
        refine ⟨x :: a, u, b, by simp [hl], hu, ?_, hb⟩
        intro y hy
        rcases List.mem_cons.1 hy with h | h
        · rw [h]; exact hx0
        · exact ha y h

/-- With no rule without match fields the launch loop leaves the table as it is. -/
theorem launch_keep {σ : Type} (c : Client σ) (exec : List Rule) (w : σ)
    (hall : ∀ r ∈ exec, noMatchFields r = false) :
    ∃ st, launch c exec w = some st ∧ st.exec = exec := by
  obtain ⟨st, h, he, -⟩ := launchLoop_keep c (List.range exec.length)
    { exec := exec, backing := exec, world := w, issued := [], slept := 0 } (by
      intro i hi
      have hlt : i < exec.length := List.mem_range.1 hi
      exact ⟨exec[i], List.getElem?_eq_getElem hlt, hall _ (List.getElem_mem hlt)⟩)
  exact ⟨st, h, he⟩

/-- After the deletion of the only rule without match fields, every later index of the
array the loop reads holds a rule from behind the deleted one. -/
theorem backing_after_delete (a b : List Rule) (u : Rule) (i : Nat) (h1 : a.length < i)
    (h2 : i < a.length + 1 + b.length) :
    ∃ s, ((a ++ b) ++ (a ++ u :: b).drop (a ++ b).length)[i]? = some s ∧ s ∈ b := by
  by_cases hlt : i < a.length + b.length
  · have hi : i - a.length < b.length := by omega
    refine ⟨b[i - a.length], ?_, List.getElem_mem hi⟩
    rw [List.getElem?_append_left (by simpa using hlt),
      List.getElem?_append_right (by omega), List.getElem?_eq_getElem hi]
  · have hi : i = a.length + b.length := by omega
    have hb : b.length - 1 < b.length := by omega
    refine ⟨b[b.length - 1], ?_, List.getElem_mem hb⟩
    rw [List.getElem?_append_right (by simp; omega)]
    simp only [List.length_append, hi, Nat.sub_self, List.getElem?_drop, Nat.add_zero]
    rw [List.getElem?_append_right (by omega)]
    have hidx : a.length + b.length - a.length = (b.length - 1) + 1 := by omega
    rw [hidx, List.getElem?_cons_succ, List.getElem?_eq_getElem hb]

/-- With exactly one rule without match fields the launch loop removes that rule. -/
theorem launch_delete_one {σ : Type} (c : Client σ) (a b : List Rule) (u : Rule) (w : σ)
    (hu : noMatchFields u = true) (ha : ∀ r ∈ a, noMatchFields r = false)
    (hb : ∀ r ∈ b, noMatchFields r = false) :
    ∃ st, launch c (a ++ u :: b) w = some st ∧ st.exec = a ++ b := by
  have hlen : (a ++ u :: b).length = b.length + 1 + a.length := by simp; omega
  have hrange : List.range (a ++ u :: b).length =
      List.range a.length ++ (a.length :: List.range' (a.length + 1) b.length) := by
    rw [hlen, List.range_eq_range', List.range_eq_range',
      ← List.range'_append_1 0 a.length (b.length + 1), Nat.zero_add, List.range'_succ]
  unfold launch
  rw [hrange, launchLoop_append]
  -- the iterations in front of the rule
  obtain ⟨st1, h1, he1, hb1⟩ := launchLoop_keep c (List.range a.length)
    { exec := a ++ u :: b, backing := a ++ u :: b, world := w, issued := [], slept := 0 }
    (by
      intro i hi
      have hlt : i < a.length := List.mem_range.1 hi
      refine ⟨a[i], ?_, ha _ (List.getElem_mem hlt)⟩
      simp only
      rw [List.getElem?_append_left hlt, List.getElem?_eq_getElem hlt])
  simp only at he1 hb1
  -- the iteration of the rule itself
  have hdel : delExecIndex st1.exec a.length = some (a ++ b) := by
    rw [he1, delExecIndex_of_lt _ _ (by simp)]
    simp [List.eraseIdx_eq_take_drop_succ]
  obtain ⟨st2, h2, he2, hb2⟩ := launchStep_delete c st1 a.length u (a ++ b)
    (by rw [hb1, List.getElem?_append_right (Nat.le_refl _)]; simp) hu hdel
  -- the iterations behind the rule
  obtain ⟨st3, h3, he3, -⟩ := launchLoop_keep c (List.range' (a.length + 1) b.length) st2
    (by
      intro i hi
      obtain ⟨hlo, hhi⟩ := List.mem_range'_1.1 hi
      rw [hb2, hb1]
      obtain ⟨s, hs, hsb⟩ := backing_after_delete a b u i (by omega) (by omega)
      exact ⟨s, hs, hb s hsb⟩)
  exact ⟨st3, by simp [h1, launchLoop, h2, h3], by rw [he3, he2]⟩

/-- Deleting while ranging: after the first rule has been deleted the loop reads index 1
of the shifted array, so the second rule, which has no match field either, is never
visited and stays in the table, while the command of the third rule is issued twice. -/
theorem launch_skips_rule_behind_deleted_one :
    (launch demoClient
      [rayDaemonRule, { Command := "exec second-daemon" }, discordRule] ()).map
      (fun st => (st.exec, st.issued)) =
    some ([{ Command := "exec second-daemon" }, discordRule],
      ["exec ray-daemon --session Default", "exec gtk-launch discord",
        "exec gtk-launch discord"]) := by
  decide

/-- C10, refuted as stated: the only rule of the table has a launch command and a title
but neither an application id nor a class; the test of line 222 also asks for an empty
title, so the launch loop leaves the rule in the table. -/
theorem launch_keeps_title_only_rule :
    (launch demoClient [titleOnlyRule] ()).map (fun st => st.exec) = some [titleOnlyRule] ∧
    titleOnlyRule.AppID = "" ∧ titleOnlyRule.Class = "" := by
  decide

/-- C10, amended: for every rule table in which at most one rule has AppID, Title and
Class all empty, the launch loop runs to completion and leaves the initial table without
that rule, all other rules in their order; so afterwards the table contains no rule whose
AppID, Title and Class are all empty. -/
theorem launch_retires_rule_without_match_fields {σ : Type} (c : Client σ)
    (exec : List Rule) (w : σ) (hone : (exec.filter noMatchFields).length ≤ 1) :
    ∃ st, launch c exec w = some st ∧
      st.exec = exec.filter (fun r => !noMatchFields r) ∧
      ∀ r ∈ st.exec, ¬ (r.AppID = "" ∧ r.Title = "" ∧ r.Class = "") := by
  have hfinal : ∀ l : List Rule, ∀ r ∈ l.filter (fun r => !noMatchFields r),
      ¬ (r.AppID = "" ∧ r.Title = "" ∧ r.Class = "") := by
    intro l r hr
    have := (List.mem_filter.1 hr).2
    intro ⟨h1, h2, h3⟩
    simp [noMatchFields, h1, h2, h3] at this
  rcases split_at_noMatchFields exec hone with hall | ⟨a, u, b, hl, hu, ha, hb⟩
  · obtain ⟨st, hst, he⟩ := launch_keep c exec w hall
    have hfilter : exec.filter (fun r => !noMatchFields r) = exec :=
      List.filter_eq_self.2 (by intro r hr; simp [hall r hr])
    refine ⟨st, hst, by rw [he, hfilter], ?_⟩
    rw [he, ← hfilter]
    exact hfinal exec
  · obtain ⟨st, hst, he⟩ := launch_delete_one c a b u w hu ha hb
    have hfa : a.filter (fun r => !noMatchFields r) = a :=
      List.filter_eq_self.2 (by intro r hr; simp [ha r hr])
    have hfb : b.filter (fun r => !noMatchFields r) = b :=
      List.filter_eq_self.2 (by intro r hr; simp [hb r hr])
    have hfilter : exec.filter (fun r => !noMatchFields r) = a ++ b := by
      rw [hl, List.filter_append, List.filter_cons, hfa, hfb]
      simp [hu]
    refine ⟨st, by rw [hl]; exact hst, by rw [he, hfilter], ?_⟩
    rw [he, ← hfilter]
    exact hfinal exec

/-- C10 as amended, exercised on a table whose middle rule only launches a command. -/
theorem launch_retires_rule_without_match_fields_witness :
    ([firefoxRule, rayDaemonRule, discordRule].filter noMatchFields).length ≤ 1 ∧
    ∃ st, launch demoClient [firefoxRule, rayDaemonRule, discordRule] () = some st ∧
      st.exec = [firefoxRule, discordRule] := by
  obtain ⟨st, hst, he, -⟩ := launch_retires_rule_without_match_fields demoClient
    [firefoxRule, rayDaemonRule, discordRule] () (by decide)
  exact ⟨by decide, st, hst, by rw [he]; decide⟩

/-! ### Removal by position -/

/-- C16 (removal is by position): for an index within the table, `delExecIndex` does not
panic and yields the table shortened by exactly one element: the elements in front of
index `i` keep their index, the elements behind it move down by one, and nothing else
changes, whether or not other rules equal the removed one. -/
theorem delExecIndex_removes_position (l : List Rule) (i : Nat) (hi : i < l.length) :
    ∃ t, delExecIndex l i = some t ∧ t = l.eraseIdx i ∧ t.length + 1 = l.length ∧
      (∀ k, k < i → t[k]? = l[k]?) ∧ (∀ k, i ≤ k → t[k]? = l[k + 1]?) := by
  refine ⟨l.eraseIdx i, delExecIndex_of_lt l i hi, rfl, ?_, ?_, ?_⟩
  · rw [List.length_eraseIdx_of_lt hi]; omega
  · intro k hk; exact List.getElem?_eraseIdx_of_lt l i k hk
  · intro k hk; exact List.getElem?_eraseIdx_of_ge l i k hk

/-- C16, exercised on a table whose first two rules are equal: removing index 1 leaves
the equal rule at index 0 in place. -/
theorem delExecIndex_removes_position_witness :
    1 < [discordRule, discordRule, firefoxRule].length ∧
    ∃ t, delExecIndex [discordRule, discordRule, firefoxRule] 1 = some t ∧
      t = [discordRule, firefoxRule] := by
  obtain ⟨t, ht, he, -⟩ :=
    delExecIndex_removes_position [discordRule, discordRule, firefoxRule] 1 (by decide)
  exact ⟨by decide, t, ht, by rw [he]; rfl⟩

/-! ### Rules that no event can match -/

/-- A rule without Class and without AppID never has `found` set. -/
theorem found_eq_false_of_no_predicate (s : Rule) (e : WindowEvent) (hc : s.Class = "")
    (ha : s.AppID = "") : found s e = false := by
  unfold found
  cases e.Container.WindowProperties <;> cases e.Container.AppID <;> simp [hc, ha]

/-- Every entry the bookkeeping collects had `found` set for one of the events. -/
theorem selections_found (es : List WindowEvent) :
    ∀ (cur : List (Nat × Rule)), ∀ x ∈ selections cur es, ∃ e ∈ es, found x.2 e = true := by
  induction es with
  | nil => intro cur x hx; simp [selections] at hx
  | cons e es ih =>
    intro cur x hx
    have hrest : ∀ cur1, x ∈ selections cur1 es → ∃ e1 ∈ e :: es, found x.2 e1 = true := by
      intro cur1 h1
      obtain ⟨e1, he1, hf1⟩ := ih cur1 x h1
      exact ⟨e1, List.mem_cons_of_mem e he1, hf1⟩
    unfold selections at hx
    split at hx
    · exact hrest cur hx
    · split at hx
      · exact hrest cur hx
      · rename_i i s hf
        rcases List.mem_append.1 hx with hx | hx
        · obtain ⟨j, hij, hj, hs, -⟩ := firstFound_some e _ 0 i s hf
          have hji : j = i := by omega
          subst hji
          have hxi : cur[j]? = some x := by simpa using hx
          have hx2 : x.2 = s := by
            rw [List.getElem?_map, hxi] at hj
            simpa using hj
          exact ⟨e, List.mem_cons_self e es, by rw [hx2]; exact hs⟩
        · exact hrest _ hx

/-- C13: for every table and every sequence of events, a rule whose Class and AppID are
both empty (whatever its Title) is never picked by `Window`: its position is not among
the picked positions and the rule is still in the table after the sequence. So a table
that contains such a rule is not empty after the sequence and `unsubscribe` has not been
called during it. -/
theorem rule_without_predicate_never_selected {σ : Type} (quote : String → String)
    (c : Client σ) (h : Handler σ) (es : List WindowEvent) :
    ∃ h1, handleEvents quote c h es = some h1 ∧
      (∀ p s, h.exec[p]? = some s → s.Class = "" → s.AppID = "" →
        p ∉ (selections h.exec.enum es).map Prod.fst ∧ s ∈ h1.exec) ∧
      ((∃ s ∈ h.exec, s.Class = "" ∧ s.AppID = "") →
        h1.exec ≠ [] ∧ h1.unsubscribed = h.unsubscribed) := by
  obtain ⟨h1, hh, hmem, -, hfin, -, -⟩ :=
    handleEvents_selections quote c es h.exec.enum h (List.enum_map_snd h.exec).symm
      (by rw [List.enum_map_fst]; exact List.nodup_range _)
  have hstay : ∀ p s, h.exec[p]? = some s → s.Class = "" → s.AppID = "" →
      p ∉ (selections h.exec.enum es).map Prod.fst ∧ s ∈ h1.exec := by
    intro p s hp hc ha
    have hnot : p ∉ (selections h.exec.enum es).map Prod.fst := by
      intro hin
      obtain ⟨x, hx, hx1⟩ := List.mem_map.1 hin
      have hxe := List.mem_enum_iff_getElem?.1 (hmem x hx)
      rw [hx1, hp] at hxe
      obtain ⟨e, -, hf⟩ := selections_found es _ x hx
      have hxs : x.2 = s := by simpa using hxe.symm
      rw [hxs, found_eq_false_of_no_predicate s e hc ha] at hf
      cases hf
    refine ⟨hnot, ?_⟩
    rw [hfin]
    refine List.mem_map.2 ⟨(p, s), List.mem_filter.2 ⟨?_, by simpa using hnot⟩, rfl⟩
    exact List.mk_mem_enum_iff_getElem?.2 hp
  refine ⟨h1, hh, hstay, ?_⟩
  rintro ⟨s, hs, hc, ha⟩
  obtain ⟨p, hp⟩ := List.mem_iff_getElem?.1 hs
  have hne : h1.exec ≠ [] := List.ne_nil_of_mem (hstay p s hp hc ha).2
  exact ⟨hne, handleEvents_unsubscribed_of_ne_nil quote c es h h1 hh hne⟩

/-! ### The root of the tree -/

/-- C19: `ParentByConID` called with the id of the root of the fetched tree returns nil,
as it does for an id that is not in the tree. Hence, when an event of kind "new" or
"title" picks a rule and the tree fetched for the layout effect has the event's container
as its root, no layout command is issued: the commands are the move command (iff
Workspace is set), the floating command (iff Float is true) and the PostCommand (iff
set). -/
theorem root_container_gets_no_layout {σ : Type} (quote : String → String) (c : Client σ)
    (h : Handler σ) (e : WindowEvent) (hk : e.Change = "new" ∨ e.Change = "title")
    (i : Nat) (s : Rule) (hf : firstFound e h.exec 0 = some (i, s)) (t : Node)
    (hfetch : (c.GetTree
      (if s.Workspace ≠ "" then
        (c.RunCommand h.world
          ("[con_id=" ++ toString e.Container.ID ++ "] move to workspace " ++
            s.Workspace)).2
      else h.world)).1 = .ok (some t))
    (hroot : t.ID = e.Container.ID) :
    (∀ w0 t0, (c.GetTree w0).1 = .ok (some t0) → (ParentByConID c w0 t0.ID).1 = none) ∧
    ∃ h1, Window quote c h e = some h1 ∧
      h1.issued = h.issued ++
        (if s.Workspace ≠ "" then
          ["[con_id=" ++ toString e.Container.ID ++ "] move to workspace " ++ s.Workspace]
        else []) ++
        (if s.Float = true then
          ["[con_id=" ++ toString e.Container.ID ++ "] floating enable"]
        else []) ++
        (if s.PostCommand ≠ "" then [s.PostCommand] else []) := by
  have hrootnil : ∀ w0 t0, (c.GetTree w0).1 = .ok (some t0) →
      (ParentByConID c w0 t0.ID).1 = none := by
    intro w0 t0 h0
    unfold ParentByConID
    rcases hg : c.GetTree w0 with ⟨r, w1⟩
    rw [hg] at h0
    simp only at h0
    subst h0
    simp only
    exact search_cons_hit t0.ID _ _ t0 rfl rfl
  refine ⟨hrootnil, _, Window_of_found quote c h e hk i s hf, ?_⟩
  have hnil := hrootnil _ t hfetch
  rw [hroot] at hnil
  rw [checkExhausted_issued, applyEffects_issued]
  dsimp only
  rw [hnil]
  by_cases hl : s.Layout = "" <;> simp [hl]

/-- C19, exercised on a layout rule and an event whose container is the root (id 1) of the
tree the window manager returns. -/
theorem root_container_gets_no_layout_witness :
    firstFound (newWindow (window 1 "Slack" none (some "Slack")))
      (freshHandler [firefoxRule, slackRule]).exec 0 = some (1, slackRule) ∧
    (demoClient.GetTree ()).1 = .ok (some demoTree) ∧
    demoTree.ID = (newWindow (window 1 "Slack" none (some "Slack"))).Container.ID ∧
    (ParentByConID demoClient () 1).1 = none ∧
    ∃ h1, Window plainQuote demoClient (freshHandler [firefoxRule, slackRule])
        (newWindow (window 1 "Slack" none (some "Slack"))) = some h1 ∧
      h1.issued = ["[con_id=1] move to workspace 2", "[con_id=1] floating enable",
        "workspace 2"] := by
  obtain ⟨hnil, h1, hw, hi⟩ := root_container_gets_no_layout plainQuote demoClient
    (freshHandler [firefoxRule, slackRule])
    (newWindow (window 1 "Slack" none (some "Slack"))) (Or.inl rfl) 1 slackRule
    (by decide) demoTree rfl rfl
  exact ⟨by decide, rfl, rfl, hnil () demoTree rfl, h1, hw, by rw [hi]; decide⟩

/-! ### The launch loop does not depend on the window manager -/

/-- One iteration leaves the same table, array, commands and sleeping time whatever the
window manager answers. -/
theorem launchStep_view {σ τ : Type} (c : Client σ) (d : Client τ) (st : Launch σ)
    (su : Launch τ) (i : Nat) (hv : st.view = su.view) :
    (launchStep c st i).map Launch.view = (launchStep d su i).map Launch.view := by
  simp only [Launch.view, Prod.mk.injEq] at hv
  obtain ⟨h1, h2, h3, h4⟩ := hv
  unfold launchStep
  rw [h2]
  cases su.backing[i]? with
  | none => rfl
  | some s =>
    simp only [h1, h3, h4]
    by_cases hc : s.Command = "" <;> by_cases hn : noMatchFields s = true <;>
      simp [hc, hn, Launch.view, h1, h2, h3, h4] <;>
      cases delExecIndex su.exec i <;> simp [Launch.view, h2, h3, h4]

/-- The iterations of the launch loop leave the same table, array, commands and sleeping
time whatever the window manager answers. -/
theorem launchLoop_view {σ τ : Type} (c : Client σ) (d : Client τ) (is : List Nat) :
    ∀ (st : Launch σ) (su : Launch τ), st.view = su.view →
      (launchLoop c is st).map Launch.view = (launchLoop d is su).map Launch.view := by
  induction is with
  | nil => intro st su hv; simp [launchLoop, hv]
  | cons i is ih =>
    intro st su hv
    have hstep := launchStep_view c d st su i hv
    cases h1 : launchStep c st i with
    | none =>
      rw [h1] at hstep
      cases h2 : launchStep d su i with
      | none => simp [launchLoop, h1, h2]
      | some su1 => rw [h2] at hstep; simp at hstep
    | some st1 =>
      rw [h1] at hstep
      cases h2 : launchStep d su i with
      | none => rw [h2] at hstep; simp at hstep
      | some su1 =>
        rw [h2] at hstep
        simp only [Option.map_some', Option.some.injEq] at hstep
        simp only [launchLoop, h1, h2]
        exact ih st1 su1 hstep

/-- The launch loop with any window manager leaves what it leaves with the one whose
commands always succeed. -/
theorem launch_view {σ : Type} (c : Client σ) (l : List Rule) (w : σ) :
    (launch c l w).map Launch.view = (launch demoClient l ()).map Launch.view :=
  launchLoop_view c demoClient (List.range l.length)
    { exec := l, backing := l, world := w, issued := [], slept := 0 }
    { exec := l, backing := l, world := (), issued := [], slept := 0 } rfl

/-! ### The launch loop hands its commands to the window manager -/

/-- One iteration hands at most one command to `RunCommand`: the commands it adds to the
record are the ones the window manager has received. -/
theorem launchStep_handOver {σ : Type} (c : Client σ) (st st1 : Launch σ) (i : Nat)
    (h : launchStep c st i = some st1) :
    ∃ cmds, st1.issued = st.issued ++ cmds ∧ st1.world = handOver c st.world cmds := by
  unfold launchStep at h
  cases hb : st.backing[i]? with
  | none => rw [hb] at h; simp at h
  | some s =>
    rw [hb] at h
    simp only at h
    by_cases hc : s.Command = ""
    · refine ⟨[], ?_, ?_⟩ <;>
        (by_cases hn : noMatchFields s = true
         · cases hd : delExecIndex st.exec i with
           | none => simp [hc, hn, hd] at h
           | some t =>
             simp [hc, hn, hd] at h
             subst h
             simp [handOver]
         · simp [hc, hn] at h
           subst h
           simp [handOver])
    · refine ⟨[s.Command], ?_, ?_⟩ <;>
        (by_cases hn : noMatchFields s = true
         · cases hd : delExecIndex st.exec i with
           | none => simp [hc, hn, hd] at h
           | some t =>
             simp [hc, hn, hd] at h
             subst h
             simp [handOver]
         · simp [hc, hn] at h
           subst h
           simp [handOver])

/-- The launch loop hands exactly the commands it records to `RunCommand`, in order. -/
theorem launchLoop_handOver {σ : Type} (c : Client σ) (is : List Nat) :
    ∀ (st st1 : Launch σ), launchLoop c is st = some st1 →
      ∃ cmds, st1.issued = st.issued ++ cmds ∧ st1.world = handOver c st.world cmds := by
  induction is with
  | nil =>
    intro st st1 h
    simp [launchLoop] at h
    subst h
    exact ⟨[], by simp, by simp [handOver]⟩
  | cons i is ih =>
    intro st st1 h
    cases hs : launchStep c st i with
    | none => simp [launchLoop, hs] at h
    | some sm =>
      simp only [launchLoop, hs] at h
      obtain ⟨c1, hi1, hw1⟩ := launchStep_handOver c st sm i hs
      obtain ⟨c2, hi2, hw2⟩ := ih sm st1 h
      refine ⟨c1 ++ c2, by rw [hi2, hi1, List.append_assoc], ?_⟩
      rw [hw2, hw1]
      simp [handOver, List.foldl_append]

/-! ### The shipped table -/

/-- C17: the table of the source has nine rules, of which only the one at index 7 has
neither an application id nor a class. With any window manager, failing or not, the
launch loop on it runs to completion, issues the nine launch commands once each in table
order, without sleeping, and leaves the other eight rules in their order; the window
manager ends in the state it reaches when `RunCommand` receives the nine commands in
table order. On a table holding a single rule with a launch command and no match field
the loop sleeps for the delay of the rule if it is positive, hands that command to
`RunCommand` once and leaves the table empty. -/
theorem launch_shipped_table {σ : Type} (c : Client σ) (w : σ) (r : Rule)
    (hcmd : r.Command ≠ "") (hnp : r.AppID = "" ∧ r.Title = "" ∧ r.Class = "") :
    exec.length = 9 ∧
    (exec.map fun s => decide (s.AppID = "" ∧ s.Class = "")) =
      [false, false, false, false, false, false, false, true, false] ∧
    (∃ st, launch c exec w = some st ∧ st.issued = exec.map (fun s => s.Command) ∧
      st.issued.length = 9 ∧ st.issued.Nodup ∧ st.exec = exec.eraseIdx 7 ∧
      st.exec.length = 8 ∧
      st.world = handOver c w (exec.map fun s => s.Command) ∧ st.slept = 0) ∧
    ∃ st, launch c [r] w = some st ∧ st.issued = [r.Command] ∧ st.exec = [] ∧
      st.world = (c.RunCommand w r.Command).2 ∧
      st.slept = (if r.SleepBefore > 0 then r.SleepBefore else 0) := by
  refine ⟨rfl, by decide, ?_, ?_⟩
  · have hv := launch_view c exec w
    have hd : (launch demoClient exec ()).map Launch.view =
        some (exec.eraseIdx 7, exec.eraseIdx 7 ++ exec.drop 8,
          exec.map (fun s => s.Command), 0) := by
      decide
    rw [hd] at hv
    cases hl : launch c exec w with
    | none => rw [hl] at hv; simp at hv
    | some st =>
      rw [hl] at hv
      simp only [Option.map_some', Option.some.injEq, Launch.view, Prod.mk.injEq] at hv
      obtain ⟨cmds, hcmds, hworld⟩ := launchLoop_handOver c _ _ st hl
      simp only [List.nil_append] at hcmds
      refine ⟨st, rfl, hv.2.2.1, ?_, ?_, hv.1, ?_, ?_, hv.2.2.2⟩
      · rw [hv.2.2.1]; rfl
      · rw [hv.2.2.1]; decide
      · rw [hv.1]; rfl
      · rw [hworld, ← hcmds, hv.2.2.1]
  · obtain ⟨h1, h2, h3⟩ := hnp
    by_cases hs : 0 < r.SleepBefore <;>
      simp [launch, launchLoop, launchStep, delExecIndex, noMatchFields, hcmd, h1, h2, h3,
        hs]

/-- C17, exercised with a window manager that records the calls it receives and, for the
second part, with a rule that only launches a command after a pause of two seconds. -/
theorem launch_shipped_table_witness :
    secondDaemonRule.Command ≠ "" ∧
    (secondDaemonRule.AppID = "" ∧ secondDaemonRule.Title = "" ∧
      secondDaemonRule.Class = "") ∧
    (∃ st, launch recordingClient exec [] = some st ∧
      st.issued = exec.map (fun s => s.Command) ∧ st.exec = exec.eraseIdx 7 ∧
      st.world = exec.map (fun s => s.Command)) ∧
    ∃ st, launch recordingClient [secondDaemonRule] [] = some st ∧
      st.issued = ["exec second-daemon"] ∧ st.exec = [] ∧
      st.world = ["exec second-daemon"] ∧ st.slept = 2000000000 := by
  obtain ⟨-, -, ⟨st, hst, hi, -, -, he, -, hw, -⟩, ⟨su, hsu, hi2, he2, hw2, hs2⟩⟩ :=
    launch_shipped_table recordingClient [] secondDaemonRule (by decide) (by decide)
  refine ⟨by decide, by decide, ⟨st, hst, hi, he, ?_⟩, ⟨su, hsu, hi2, he2, ?_, ?_⟩⟩
  · rw [hw]; decide
  · rw [hw2]; decide
  · rw [hs2]; decide

/-! ### Deleting from the table while ranging over it -/

/-- C11, the launch loop on a table whose first rule has no match field: after the
deletion of index 0 the loop reads index 1 of the shifted array, which now holds the third
rule; the command of the second rule is never issued and the command of the third rule
is issued twice, while the commands of the table are three different ones. -/
theorem launch_skips_command_behind_deleted_rule :
    (launch demoClient [rayDaemonRule, firefoxRule, discordRule] ()).map
      (fun st => st.issued) =
      some ["exec ray-daemon --session Default", "exec gtk-launch discord",
        "exec gtk-launch discord"] ∧
    ([rayDaemonRule, firefoxRule, discordRule].map fun s => s.Command) =
      ["exec ray-daemon --session Default", "exec gtk-launch firefox",
        "exec gtk-launch discord"] := by
  decide

/-- C12, the launch loop on a table whose first and last rules have no match field: the
stale copy of the last rule is read at index 2 when the table holds one rule only, and
`delExecIndex` then sets the table to nil, removing the rule for "firefox" that has an
application id. -/
theorem launch_removes_rule_with_predicate :
    (launch demoClient [rayDaemonRule, firefoxRule, secondDaemonRule] ()).map
      (fun st => st.exec) = some [] ∧
    firefoxRule.AppID ≠ "" := by
  decide

/-- C18, the launch loop on a table of four rules whose first and last have no match
field: after the iterations 0, 1 and 2 the table holds two rules, the loop reads the stale
copy of the last rule at index 3, and `delExecIndex(3)` evaluates `exec[4:]` on a slice of
length 2, which panics. -/
theorem launch_index_out_of_range :
    (launchLoop demoClient [0, 1, 2]
      { exec := [rayDaemonRule, firefoxRule, discordRule, secondDaemonRule],
        backing := [rayDaemonRule, firefoxRule, discordRule, secondDaemonRule],
        world := (), issued := [], slept := 0 }).map (fun st => (st.exec, st.backing)) =
      some ([firefoxRule, discordRule],
        [firefoxRule, discordRule, secondDaemonRule, secondDaemonRule]) ∧
    delExecIndex [firefoxRule, discordRule] 3 = none ∧
    (launch demoClient [rayDaemonRule, firefoxRule, discordRule, secondDaemonRule]
      ()).isNone = true := by
  decide

/-! ### Breadth first against depth first -/

/-- The depth-first search in terms of the fields of the node. -/
theorem depthFirst_eq (conID : Int) (par : Option Node) (n : Node) :
    depthFirst conID par n =
      if n.ID = conID then some par
      else
        match depthFirstList conID (some n) n.Nodes with
        | some p => some p
        | none => depthFirstList conID (some n) n.FloatingNodes := by
  cases n; simp [depthFirst]

mutual
/-- The depth-first search returns the parent of the first pair, in the order of the pair
list of the tree, whose node has the wanted id. -/
theorem depthFirst_eq_find (conID : Int) (par : Option Node) (n : Node) :
    depthFirst conID par n =
      (((par, n) :: n.edges).find? fun x => decide (x.2.ID = conID)).map Prod.fst := by
  match n with
  | ⟨id, ty, nm, ap, wp, ns, fs⟩ =>
    rw [depthFirst_eq, Node.edges_eq]
    by_cases hid : id = conID
    · simp [hid, List.find?_cons]
    · have h1 := depthFirstList_eq_find conID
        (some ⟨id, ty, nm, ap, wp, ns, fs⟩) ns
      have h2 := depthFirstList_eq_find conID
        (some ⟨id, ty, nm, ap, wp, ns, fs⟩) fs
      simp only [hid, if_false, List.find?_cons, decide_False, List.find?_append]
      rw [h1, h2]
      cases List.find? (fun x => decide (x.2.ID = conID))
        (Node.edgesList (some ⟨id, ty, nm, ap, wp, ns, fs⟩) ns) <;> simp
/-- The depth-first search through a list of children, in terms of the pair list. -/
theorem depthFirstList_eq_find (conID : Int) (par : Option Node) (l : List (Option Node)) :
    depthFirstList conID par l =
      ((Node.edgesList par l).find? fun x => decide (x.2.ID = conID)).map Prod.fst := by
  match l with
  | [] => simp [depthFirstList, Node.edgesList]
  | none :: r =>
    simp only [depthFirstList, Node.edgesList]
    exact depthFirstList_eq_find conID par r
  | some c :: r =>
    have h1 := depthFirst_eq_find conID par c
    have h2 := depthFirstList_eq_find conID par r
    simp only [depthFirstList, Node.edgesList]
    rw [h1, h2, ← List.cons_append, List.find?_append]
    cases List.find? (fun x => decide (x.2.ID = conID)) ((par, c) :: c.edges) <;> simp
end

/-- C15 (breadth first and depth first agree): when the fetched tree has pairwise distinct
node ids, `ParentByConID` returns for every id what the depth-first pre-order search of
the same tree returns: the same parent, or nil in both. -/
theorem ParentByConID_eq_depthFirstParent {σ : Type} (c : Client σ) (w : σ) (t : Node)
    (conID : Int) (hfetch : (c.GetTree w).1 = .ok (some t))
    (hids : (t.nodes.map Node.ID).Nodup) :
    (ParentByConID c w conID).1 = depthFirstParent t conID := by
  have hbfs : (ParentByConID c w conID).1 =
      search conID [{ Parent := none, Node := some t }] := by
    unfold ParentByConID
    rcases hg : c.GetTree w with ⟨r, w1⟩
    rw [hg] at hfetch
    simp only at hfetch
    subst hfetch
    rfl
  rw [hbfs]
  unfold depthFirstParent
  rw [depthFirst_eq_find]
  cases hfind : ((none, t) :: t.edges).find? fun x => decide (x.2.ID = conID) with
  | none =>
    simp only [Option.map_none']
    apply search_eq_none
    intro x hx
    rw [reach_root] at hx
    have := List.find?_eq_none.1 hfind x hx
    simpa using this
  | some x =>
    simp only [Option.map_some']
    apply search_eq_parent conID _ _ x.1 x.2
    · rw [reach_root]
      exact List.mem_of_find?_eq_some hfind
    · have := List.find?_some hfind
      simpa using this
    · rw [reach_root]
      simpa [Node.nodes, Function.comp_def] using hids

/-- C15, exercised on the demonstration tree and the id of a window inside the split
container: both searches return the split container. -/
theorem ParentByConID_eq_depthFirstParent_witness :
    (demoClient.GetTree ()).1 = .ok (some demoTree) ∧
    (demoTree.nodes.map Node.ID).Nodup ∧
    (depthFirstParent demoTree 44).map Node.ID = some 7 ∧
    (ParentByConID demoClient () 44).1 = depthFirstParent demoTree 44 :=
  ⟨rfl, by decide, by decide,
    ParentByConID_eq_depthFirstParent demoClient () demoTree 44 rfl (by decide)⟩

/-! ### Rules with the same match fields -/

/-- The flag `found` only depends on the Class, the AppID and the Title of the rule. -/
theorem found_congr (s t : Rule) (e : WindowEvent) (hc : s.Class = t.Class)
    (ha : s.AppID = t.AppID) (ht : s.Title = t.Title) : found s e = found t e := by
  unfold found
  rw [hc, ha, ht]

/-- In the bookkeeping of a sequence of events, of two entries of the tagged table whose
rules have `found` set for the same events, the later one is picked only after the
earlier one. -/
theorem selections_order (es : List WindowEvent) (x y : Nat × Rule)
    (hxy : ∀ e, found x.2 e = found y.2 e) :
    ∀ (cur : List (Nat × Rule)) (m k : Nat), (cur.map Prod.fst).Nodup → m < k →
      cur[m]? = some x → cur[k]? = some y →
      ∀ pre post, (selections cur es).map Prod.fst = pre ++ y.1 :: post → x.1 ∈ pre := by
  induction es with
  | nil =>
    intro cur m k _ _ _ _ pre post h
    simp [selections] at h
  | cons e es ih =>
    intro cur m k hnd hmk hm hk pre post h
    unfold selections at h
    split at h
    · exact ih cur m k hnd hmk hm hk pre post h
    · split at h
      · exact ih cur m k hnd hmk hm hk pre post h
      · rename_i i s hf
        obtain ⟨j, hij, hj, hs, hfirst⟩ := firstFound_some e _ 0 i s hf
        have hji : j = i := by omega
        subst hji
        have hlt : j < cur.length := by
          by_contra hge
          rw [List.getElem?_eq_none (by simpa using hge)] at hj
          simp at hj
        have hz : cur[j]? = some cur[j] := List.getElem?_eq_getElem hlt
        have hz2 : (cur[j]).2 = s := by
          rw [List.getElem?_map, hz] at hj
          simpa using hj
        -- the picked index is not the index of the later entry
        have hjk : j ≠ k := by
          intro hjk
          subst hjk
          have hzy : cur[j] = y := by rw [hz] at hk; simpa using hk
          have hfx : found x.2 e = true := by rw [hxy e, ← hzy, hz2]; exact hs
          have := hfirst m hmk x.2 (by rw [List.getElem?_map, hm]; rfl)
          rw [this] at hfx
          cases hfx
        rw [hz] at h
        simp only [Option.toList_some, List.singleton_append, List.map_cons] at h
        cases pre with
        | nil =>
          simp only [List.nil_append, List.cons.injEq] at h
          exfalso
          apply hjk
          apply List.getElem?_inj (by simpa using hlt) hnd
          rw [List.getElem?_map, List.getElem?_map, hz, hk]
          simp [h.1]
        | cons a pre1 =>
          simp only [List.cons_append, List.cons.injEq] at h
          obtain ⟨ha, hrest⟩ := h
          by_cases hjm : j = m
          · subst hjm
            have hzx : cur[j] = x := by rw [hz] at hm; simpa using hm
            rw [← ha, hzx]
            exact List.mem_cons_self _ _
          · have hnd1 : ((cur.eraseIdx j).map Prod.fst).Nodup := by
              have : (cur.eraseIdx j).map Prod.fst = (cur.map Prod.fst).eraseIdx j := by
                simp [List.eraseIdx_eq_take_drop_succ, List.map_take, List.map_drop]
              rw [this]
              exact hnd.eraseIdx j
            have hin : x.1 ∈ pre1 := by
              by_cases h1 : j < m
              · have hm1 : (cur.eraseIdx j)[m - 1]? = some x := by
                  rw [List.getElem?_eraseIdx_of_ge cur j (m - 1) (by omega)]
                  have : m - 1 + 1 = m := by omega
                  rw [this]; exact hm
                have hk1 : (cur.eraseIdx j)[k - 1]? = some y := by
                  rw [List.getElem?_eraseIdx_of_ge cur j (k - 1) (by omega)]
                  have : k - 1 + 1 = k := by omega
                  rw [this]; exact hk
                exact ih _ (m - 1) (k - 1) hnd1 (by omega) hm1 hk1 pre1 post hrest
              · have hm1 : (cur.eraseIdx j)[m]? = some x := by
                  rw [List.getElem?_eraseIdx_of_lt cur j m (by omega)]; exact hm
                by_cases h2 : j < k
                · have hk1 : (cur.eraseIdx j)[k - 1]? = some y := by
                    rw [List.getElem?_eraseIdx_of_ge cur j (k - 1) (by omega)]
                    have : k - 1 + 1 = k := by omega
                    rw [this]; exact hk
                  exact ih _ m (k - 1) hnd1 (by omega) hm1 hk1 pre1 post hrest
                · have hk1 : (cur.eraseIdx j)[k]? = some y := by
                    rw [List.getElem?_eraseIdx_of_lt cur j k (by omega)]; exact hk
                  exact ih _ m k hnd1 hmk hm1 hk1 pre1 post hrest
            exact List.mem_cons_of_mem _ hin

/-- C14, refuted as stated: the two rules of the table have the same Class, AppID and
Title. The first event picks the earlier rule; the same event handled again picks the
later rule, whose move command (to workspace 9) is issued, and the table is empty. -/
theorem later_duplicate_is_selected :
    discordRule.Class = discordAgainRule.Class ∧
    discordRule.AppID = discordAgainRule.AppID ∧
    discordRule.Title = discordAgainRule.Title ∧
    selections [discordRule, discordAgainRule].enum [discordEvent, discordEvent] =
      [(0, discordRule), (1, discordAgainRule)] ∧
    (handleEvents plainQuote demoClient (freshHandler [discordRule, discordAgainRule])
      [discordEvent, discordEvent]).map (fun h => (h.exec, h.issued)) =
      some ([], ["[con_id=60] move to workspace 2", "[con_id=60] move to workspace 9"]) := by
  decide

/-- C14, amended: when the rules at the positions `i < j` of the table have the same
Class, AppID and Title, then in every sequence of events handled by `Window` the later
rule is picked only after the earlier one has been picked by an earlier event; as long
as the earlier one has not been picked, the later one is still in the table. The later
rule is not dead: in whatever table it stands, an event of kind "new" or "title" that
matches it and no rule in front of it picks and removes it. -/
theorem later_duplicate_selected_after_earlier {σ : Type} (quote : String → String)
    (c : Client σ) (h : Handler σ) (es : List WindowEvent) (i j : Nat) (s t : Rule)
    (hij : i < j) (hs : h.exec[i]? = some s) (ht : h.exec[j]? = some t)
    (hc : s.Class = t.Class) (ha : s.AppID = t.AppID) (htitle : s.Title = t.Title) :
    ∃ h1, handleEvents quote c h es = some h1 ∧
      (∀ pre post, (selections h.exec.enum es).map Prod.fst = pre ++ j :: post → i ∈ pre) ∧
      (i ∉ (selections h.exec.enum es).map Prod.fst →
        j ∉ (selections h.exec.enum es).map Prod.fst ∧ t ∈ h1.exec) ∧
      ∀ (h2 : Handler σ) (k : Nat) (e : WindowEvent),
        (e.Change = "new" ∨ e.Change = "title") → h2.exec[k]? = some t →
        found t e = true →
        (∀ m, m < k → ∀ r, h2.exec[m]? = some r → found r e = false) →
        firstFound e h2.exec 0 = some (k, t) ∧
        ∃ h3, Window quote c h2 e = some h3 ∧ h3.exec = h2.exec.eraseIdx k := by
  have hnd : (h.exec.enum.map Prod.fst).Nodup := by
    rw [List.enum_map_fst]; exact List.nodup_range _
  obtain ⟨h1, hh, -, -, hfin, -, -⟩ :=
    handleEvents_selections quote c es h.exec.enum h (List.enum_map_snd h.exec).symm hnd
  have horder : ∀ pre post,
      (selections h.exec.enum es).map Prod.fst = pre ++ j :: post → i ∈ pre := by
    intro pre post hsel
    exact selections_order es (i, s) (j, t) (fun e => found_congr s t e hc ha htitle)
      h.exec.enum i j hnd hij (by rw [List.getElem?_enum, hs]; rfl)
      (by rw [List.getElem?_enum, ht]; rfl) pre post hsel
  have hlive : ∀ (h2 : Handler σ) (k : Nat) (e : WindowEvent),
      (e.Change = "new" ∨ e.Change = "title") → h2.exec[k]? = some t →
      found t e = true →
      (∀ m, m < k → ∀ r, h2.exec[m]? = some r → found r e = false) →
      firstFound e h2.exec 0 = some (k, t) ∧
      ∃ h3, Window quote c h2 e = some h3 ∧ h3.exec = h2.exec.eraseIdx k := by
    intro h2 k e hk hkt hfound hfront
    have hsel : firstFound e h2.exec 0 = some (k, t) := by
      simpa using firstFound_of_first e h2.exec 0 k t hkt hfound hfront
    exact ⟨hsel, _, Window_of_found quote c h2 e hk k t hsel, by simp⟩
  refine ⟨h1, hh, horder, ?_, hlive⟩
  intro hi
  have hj : j ∉ (selections h.exec.enum es).map Prod.fst := by
    intro hin
    obtain ⟨pre, post, hsplit⟩ := List.append_of_mem hin
    have := horder pre post hsplit
    apply hi
    rw [hsplit]
    exact List.mem_append_left _ this
  refine ⟨hj, ?_⟩
  rw [hfin]
  refine List.mem_map.2 ⟨(j, t), List.mem_filter.2 ⟨?_, by simpa using hj⟩, rfl⟩
  exact List.mk_mem_enum_iff_getElem?.2 ht

/-- C14 as amended, exercised on a table with two rules for class "discord" behind a rule
for "firefox": an event for "firefox" picks neither, so the later one is still there. -/
theorem later_duplicate_selected_after_earlier_witness :
    (1 : Nat) < 2 ∧
    (freshHandler [firefoxRule, discordRule, discordAgainRule]).exec[1]? =
      some discordRule ∧
    (freshHandler [firefoxRule, discordRule, discordAgainRule]).exec[2]? =
      some discordAgainRule ∧
    discordRule.Class = discordAgainRule.Class ∧
    discordRule.AppID = discordAgainRule.AppID ∧
    discordRule.Title = discordAgainRule.Title ∧
    ∃ h1, handleEvents plainQuote demoClient
        (freshHandler [firefoxRule, discordRule, discordAgainRule])
        [newWindow (window 43 "Mozilla Firefox" (some "firefox") none)] = some h1 ∧
      discordAgainRule ∈ h1.exec := by
  obtain ⟨h1, hh, -, hstay, -⟩ := later_duplicate_selected_after_earlier plainQuote demoClient
    (freshHandler [firefoxRule, discordRule, discordAgainRule])
    [newWindow (window 43 "Mozilla Firefox" (some "firefox") none)] 1 2
    discordRule discordAgainRule (by decide) rfl rfl rfl rfl rfl
  exact ⟨by decide, rfl, rfl, rfl, rfl, rfl, h1, hh, (hstay (by decide)).2⟩

end SwayRestore
